import Mathlib

/-!
Verification of the merge-train coordinator core (state machine over merge
candidate branches).  The Go source is shallowly embedded: Go maps become
association lists (iteration order explicit, key lookup is first match),
Go machine integers become Int with explicit range conditions where they
matter, and the hosting-service adapter becomes explicit parameters
(branch listings, comment streams, head oracles) or an emitted operation
trace.
-/

namespace BuildTool

/-- CommitID uniquely identifies a commit (opaque string). -/
abbrev CommitID := String

/-- PullRequestNumber uniquely identifies a pull request (Go int). -/
abbrev PullRequestNumber := Int

/-- BranchKey uniquely identifies a merge candidate branch. -/
structure BranchKey where
  PipelineCounter : Int
  PullRequestNumber : PullRequestNumber
deriving DecidableEq

/-- The zero value of BranchKey, used by the Go code as the base sentinel. -/
def zeroBK : BranchKey := ⟨0, 0⟩

/-- BranchValue stores all the necessary data for a merge candidate branch.
The tip commit field is listed last so that its name does not shadow the
CommitID type for the Parents field. -/
structure BranchValue where
  Parents : List CommitID
  isValid : Bool
  IsCheckDone : Bool
  IsCheckPass : Bool
  CommitID : CommitID
deriving DecidableEq

/-- PipelineValue encodes the position of a merge candidate branch in the
build pipeline. -/
structure PipelineValue where
  Predecessor : BranchKey
  Weight : Int
  IsNotInPipeline : Bool
deriving DecidableEq

/-- The zero value of PipelineValue, produced by a Go map lookup at a
missing key. -/
def zeroPV : PipelineValue := ⟨zeroBK, 0, false⟩

/-- PipelineTree materializes the build pipeline tree (Go map embedded as
an association list). -/
abbrev PipelineTree := List (BranchKey × PipelineValue)

section AssocMap

variable {α β : Type} [DecidableEq α]

/-- Lookup in an association list: first matching key wins (Go map lookup). -/
def lookupA (l : List (α × β)) (k : α) : Option β :=
  (l.find? (fun p => decide (p.1 = k))).map (fun p => p.2)

/-- Key membership in an association list (Go comma-ok map lookup). -/
def containsA (l : List (α × β)) (k : α) : Bool :=
  (lookupA l k).isSome

/-- Go map assignment: replace the first binding of the key if present,
else append a new binding. -/
def insertA : List (α × β) → α → β → List (α × β)
  | [], k, v => [(k, v)]
  | p :: l, k, v => if p.1 = k then (k, v) :: l else p :: insertA l k v

/-- Keys of an association list have no duplicates (true of any list
embedding of a Go map). -/
def NodupKeysA (l : List (α × β)) : Prop := (l.map Prod.fst).Nodup

theorem lookupA_nil (k : α) : lookupA ([] : List (α × β)) k = none := rfl

theorem lookupA_cons (p : α × β) (l : List (α × β)) (k : α) :
    lookupA (p :: l) k = if p.1 = k then some p.2 else lookupA l k := by
  by_cases h : p.1 = k <;> simp [lookupA, List.find?, h]

theorem lookupA_insertA (l : List (α × β)) (k k' : α) (v : β) :
    lookupA (insertA l k v) k' = if k = k' then some v else lookupA l k' := by
  induction l with
  | nil => simp [insertA, lookupA_cons, lookupA_nil]
  | cons p l ih =>
    rw [insertA]
    by_cases hp : p.1 = k
    · simp only [hp, if_true]
      rw [lookupA_cons, lookupA_cons]
      by_cases hk : k = k'
      · simp [hk]
      · have : ¬ (p.1 = k') := by rw [hp]; exact hk
        simp [hk, this]
    · simp only [hp, if_false]
      rw [lookupA_cons, lookupA_cons, ih]
      by_cases hk : k = k'
      · have : ¬ (p.1 = k') := by rw [← hk]; exact hp
        simp [hk, this]
      · simp [hk]

theorem containsA_insertA (l : List (α × β)) (k k' : α) (v : β) :
    containsA (insertA l k v) k' = (decide (k = k') || containsA l k') := by
  unfold containsA
  rw [lookupA_insertA]
  by_cases hk : k = k' <;> simp [hk]

theorem keys_insertA (l : List (α × β)) (k : α) (v : β) :
    (insertA l k v).map Prod.fst =
      if containsA l k then l.map Prod.fst else l.map Prod.fst ++ [k] := by
  induction l with
  | nil => simp [insertA, containsA, lookupA_nil]
  | cons p l ih =>
    rw [insertA]
    by_cases hp : p.1 = k
    · simp [hp, containsA, lookupA_cons]
    · simp only [hp, if_false, List.map_cons]
      rw [ih]
      have : containsA (p :: l) k = containsA l k := by
        simp [containsA, lookupA_cons, hp]
      rw [this]
      by_cases hc : containsA l k <;> simp [hc]

theorem containsA_of_mem_keys (l : List (α × β)) (k : α)
    (h : k ∈ l.map Prod.fst) : containsA l k = true := by
  induction l with
  | nil => simp at h
  | cons q l ih =>
    rw [containsA, lookupA_cons]
    by_cases hq : q.1 = k
    · simp [hq]
    · simp only [hq, if_false]
      rw [List.map_cons, List.mem_cons] at h
      rcases h with h1 | h1
      · exact absurd h1.symm hq
      · exact ih h1

theorem nodupKeysA_insertA (l : List (α × β)) (k : α) (v : β)
    (h : NodupKeysA l) : NodupKeysA (insertA l k v) := by
  unfold NodupKeysA at h ⊢
  rw [keys_insertA]
  by_cases hc : containsA l k = true
  · simpa [hc] using h
  · rw [if_neg hc, List.nodup_append]
    refine ⟨h, List.nodup_singleton k, ?_⟩
    intro a ha hb
    simp only [List.mem_singleton] at hb
    subst hb
    exact hc (containsA_of_mem_keys l a ha)

theorem mem_keys_of_containsA (l : List (α × β)) (k : α)
    (h : containsA l k = true) : k ∈ l.map Prod.fst := by
  induction l with
  | nil => simp [containsA, lookupA_nil] at h
  | cons q l ih =>
    rw [containsA, lookupA_cons] at h
    by_cases hq : q.1 = k
    · simp [← hq]
    · simp only [hq, if_false] at h
      exact List.mem_cons_of_mem _ (ih h)

theorem lookupA_eq_some_of_mem (l : List (α × β)) (p : α × β)
    (hnd : NodupKeysA l) (hp : p ∈ l) : lookupA l p.1 = some p.2 := by
  induction l with
  | nil => simp at hp
  | cons q l ih =>
    rw [lookupA_cons]
    rcases List.mem_cons.mp hp with h1 | h1
    · subst h1
      simp
    · by_cases hq : q.1 = p.1
      · exfalso
        unfold NodupKeysA at hnd
        rw [List.map_cons, List.nodup_cons] at hnd
        exact hnd.1 (hq ▸ List.mem_map.mpr ⟨p, h1, rfl⟩)
      · simp only [hq, if_false]
        exact ih (by
          unfold NodupKeysA at hnd ⊢
          rw [List.map_cons, List.nodup_cons] at hnd
          exact hnd.2) h1

theorem mem_of_lookupA_eq_some (l : List (α × β)) (k : α) (v : β)
    (h : lookupA l k = some v) : (k, v) ∈ l := by
  induction l with
  | nil => simp [lookupA_nil] at h
  | cons q l ih =>
    rw [lookupA_cons] at h
    by_cases hq : q.1 = k
    · simp only [hq, if_true, Option.some.injEq] at h
      rcases q with ⟨q1, q2⟩
      simp only at hq h
      subst hq
      subst h
      exact List.mem_cons_self _ _
    · simp only [hq, if_false] at h
      exact List.mem_cons_of_mem _ (ih h)

end AssocMap

/-- Set insertion for the cancelled set (Go assignment into a set-map). -/
def insertSet {α : Type} [DecidableEq α] (l : List α) (k : α) : List α :=
  if k ∈ l then l else l ++ [k]

theorem mem_insertSet {α : Type} [DecidableEq α] (l : List α) (k n : α) :
    n ∈ insertSet l k ↔ n ∈ l ∨ n = k := by
  unfold insertSet
  by_cases h : k ∈ l
  · simp only [h, if_true]
    constructor
    · exact Or.inl
    · rintro (hn | hn)
      · exact hn
      · subst hn; exact h
  · simp [h, List.mem_append]

/-! ### Identifiers and naming (api.go) -/

/-- Characters of a string literal, for stating concrete facts. -/
def strChars (s : String) : List Char := s.data

/-- The characters of the reserved branch-name marker merge-candidate. -/
def mcMarker : List Char :=
  ['m', 'e', 'r', 'g', 'e', '-', 'c', 'a', 'n', 'd', 'i', 'd', 'a', 't', 'e']

/-- Decimal digit test (strconv accepts exactly these in base 10). -/
def isDigitC (c : Char) : Bool := decide ('0' ≤ c) && decide (c ≤ '9')

/-- Render one decimal digit as a character. -/
def digitChar (d : Nat) : Char := Char.ofNat (48 + d)

/-- Big-endian decimal digits of a natural number, with explicit fuel so
that the definition reduces in the kernel. -/
def natDigitsAux : Nat → Nat → List Char
  | 0, _ => []
  | fuel + 1, n =>
    if n = 0 then [] else natDigitsAux fuel (n / 10) ++ [digitChar (n % 10)]

/-- Big-endian decimal rendering of a natural number (fmt.Sprintf %d). -/
def natDigits (n : Nat) : List Char :=
  if n = 0 then ['0'] else natDigitsAux n n

/-- Decimal rendering of a Go int (fmt.Sprintf %d). -/
def intChars (i : Int) : List Char :=
  if i < 0 then '-' :: natDigits (-i).toNat else natDigits i.toNat

/-- Numeric value of a big-endian digit-character list. -/
def digitsVal (cs : List Char) : Nat :=
  cs.foldl (fun a c => a * 10 + (c.toNat - 48)) 0

/-- Model of strconv.Atoi for a 64-bit Go int: optional single sign, then
one or more decimal digits, and the value must fit in the int range.
Returns the parsed (or clamped) value plus a success flag; Go returns a
nil error exactly when the flag is true. -/
def goAtoi (cs : List Char) : Int × Bool :=
  match cs with
  | [] => (0, false)
  | c :: rest =>
    let neg : Bool := c = '-'
    let ds : List Char := if c = '+' || c = '-' then rest else c :: rest
    if ds = [] then (0, false)
    else if ds.all isDigitC then
      let n : Nat := digitsVal ds
      if neg then
        if n ≤ 2 ^ 63 then (-(n : Int), true) else (-(2 ^ 63 : Int), false)
      else
        if n < 2 ^ 63 then ((n : Int), true) else ((2 ^ 63 : Int) - 1, false)
    else (0, false)

/-- Split a character list on the hyphen separator (strings.Split on a
one-character separator). -/
def splitDash : List Char → List (List Char)
  | [] => [[]]
  | c :: cs =>
    if c = '-' then [] :: splitDash cs
    else
      match splitDash cs with
      | [] => [[c]]
      | l :: ls => (c :: l) :: ls

/-- Literal-prefix test on character lists (strings.HasPrefix). -/
def startsWith : List Char → List Char → Bool
  | [], _ => true
  | _ :: _, [] => false
  | l :: ls, c :: cs => if c = l then startsWith ls cs else false

/-- BranchName returns the merge candidate branch name for this BranchKey
(api.go BranchName). -/
def BranchKey.BranchName (bk : BranchKey) : List Char :=
  mcMarker ++ '-' :: (intChars bk.PullRequestNumber ++
    '-' :: intChars bk.PipelineCounter)

/-- ParseBranchKey extracts a BranchKey from a merge candidate branch name
(api.go ParseBranchKey).  The Go code assigns the parsed fields into the
returned key even on the failure paths, and that behaviour is preserved. -/
def ParseBranchKey (cs : List Char) : BranchKey × Bool :=
  if startsWith (mcMarker ++ ['-']) cs then
    match splitDash (cs.drop (mcMarker.length + 1)) with
    | [a, b] =>
      if !(goAtoi a).2 || (goAtoi a).1 ≤ 0 then (⟨0, (goAtoi a).1⟩, false)
      else if !(goAtoi b).2 || (goAtoi b).1 ≤ 0 then
        (⟨(goAtoi b).1, (goAtoi a).1⟩, false)
      else (⟨(goAtoi b).1, (goAtoi a).1⟩, true)
    | _ => (⟨0, 0⟩, false)
  else (⟨0, 0⟩, false)

/-! ### State and transitions (state.go) -/

/-- State stores the current state in the state machine.  Go maps are
embedded as association lists. -/
structure State where
  Base : CommitID
  Branches : List (BranchKey × BranchValue)
  MergeablePullRequests : List (PullRequestNumber × CommitID)
  CancelledPullRequests : List PullRequestNumber
deriving DecidableEq

/-- Adapter write operations, recorded as a trace where the Go code calls
the GithubClient. -/
inductive AdapterOp where
  | CreateBranch (bk : BranchKey) (sha : CommitID)
  | MergeBranch (bk : BranchKey) (sha : CommitID)
  | DeleteBranch (bk : BranchKey)
deriving DecidableEq

/-- FetchMergeCandidateBranchState initializes a state with the set of
merge candidate branches.  The adapter is embedded as the observed base
head, the listed branch keys, and the per-branch detail oracle. -/
def FetchMergeCandidateBranchState (base : CommitID) (listed : List BranchKey)
    (getBranch : BranchKey → BranchValue) : State :=
  { Base := base
    Branches := listed.foldl (fun m bk => insertA m bk (getBranch bk)) []
    MergeablePullRequests := []
    CancelledPullRequests := [] }

/-- One admission attempt of the pipeline-tree fixed point: the branch is
skipped if already placed, otherwise its first parent already owning a
commit decides its predecessor, weight and tombstone (state.go
BuildPipelineTree loop body). -/
def buildStep (branches : PipelineTree × List (CommitID × BranchKey) × Nat)
    (bk : BranchKey) (bv : BranchValue) :
    PipelineTree × List (CommitID × BranchKey) × Nat :=
  let t := branches.1
  let shas := branches.2.1
  let numAdded := branches.2.2
  if containsA t bk then (t, shas, numAdded)
  else
    match (bv.Parents.find? (fun p => containsA shas p)) with
    | none => (t, shas, numAdded)
    | some p =>
      let parentKey := (lookupA shas p).getD zeroBK
      let pv := (lookupA t parentKey).getD zeroPV
      (insertA t bk
          ⟨parentKey, pv.Weight + 1,
            pv.IsNotInPipeline || !bv.isValid ||
              (bv.IsCheckDone && !bv.IsCheckPass)⟩,
        insertA shas bv.CommitID bk,
        numAdded + 1)

/-- One full pass of the pipeline-tree fixed point over all branches. -/
def buildPass (branches : List (BranchKey × BranchValue))
    (acc : PipelineTree × List (CommitID × BranchKey)) :
    PipelineTree × List (CommitID × BranchKey) × Nat :=
  branches.foldl (fun a p => buildStep a p.1 p.2) (acc.1, acc.2, 0)

/-- The pipeline-tree fixed point, with fuel bounding the number of
passes; the Go loop stops at the first pass which admits nothing. -/
def buildLoop (branches : List (BranchKey × BranchValue)) :
    Nat → PipelineTree × List (CommitID × BranchKey) →
    PipelineTree × List (CommitID × BranchKey)
  | 0, acc => acc
  | fuel + 1, acc =>
    let r := buildPass branches acc
    if r.2.2 = 0 then (r.1, r.2.1) else buildLoop branches fuel (r.1, r.2.1)

/-- BuildPipelineTree builds a PipelineTree based off the current state
(state.go BuildPipelineTree). -/
def State.BuildPipelineTree (os : State) : PipelineTree :=
  (buildLoop os.Branches (os.Branches.length + 1)
    ([], [(os.Base, zeroBK)])).1

/-- ToPrunedOrphanedBranches transitions the state to another in which all
orphaned merge candidate branches have been pruned (state.go).  The
adapter branch deletions affect only the hosting service and are not part
of the returned state. -/
def State.ToPrunedOrphanedBranches (os : State) (t : PipelineTree) : State :=
  { os with Branches := os.Branches.filter (fun p => containsA t p.1) }

/-- The weight the Go code reads for the running selection candidate: a
tree lookup with the zero value at a missing key. -/
def selW (t : PipelineTree) (cur : BranchKey) : Int :=
  ((lookupA t cur).getD zeroPV).Weight

/-- One iteration of the selection loop of FindFastForward (state.go
FindFastForward first loop body). -/
def selStep (t : PipelineTree) (cur : BranchKey)
    (p : BranchKey × PipelineValue) : BranchKey :=
  if p.2.IsNotInPipeline then cur
  else if selW t cur < p.2.Weight then p.1
  else if selW t cur = p.2.Weight &&
      decide (cur.PullRequestNumber > p.1.PullRequestNumber) then p.1
  else cur

/-- The selection loop of FindFastForward: the viable tree entry of
maximum weight, ties broken towards the smaller pull-request number in
the order the entries are visited (state.go FindFastForward first loop). -/
def selectHead (t : PipelineTree) : BranchKey :=
  t.foldl (selStep t) zeroBK

/-- The predecessor walk of FindFastForward, with fuel standing in for the
unbounded Go loop (which terminates on every tree the Go code builds). -/
def ffWalk (os : State) (t : PipelineTree) : Nat → BranchKey → Option CommitID
  | 0, _ => none
  | fuel + 1, bk =>
    match lookupA os.Branches bk with
    | none => none
    | some bv =>
      if bv.IsCheckPass then some bv.CommitID
      else ffWalk os t fuel ((lookupA t bk).getD zeroPV).Predecessor

/-- FindFastForward identifies a commit to fast-forward to; none if no
viable passing branch exists (state.go FindFastForward). -/
def State.FindFastForward (os : State) (t : PipelineTree) : Option CommitID :=
  ffWalk os t (t.length + 1) (selectHead t)

/-! Comment classification (state.go ToDecoratedWithPullRequests). -/

/-- Whitespace class of the Go regexp escape for spaces. -/
def wsChar (c : Char) : Bool :=
  c = ' ' || c = '\t' || c = '\n' || c = '\x0c' || c = '\x0d'

/-- Strip a literal from the front of a line, or fail. -/
def stripLit : List Char → List Char → Option (List Char)
  | [], cs => some cs
  | _ :: _, [] => none
  | l :: ls, c :: cs => if c = l then stripLit ls cs else none

/-- A tail matching a trailing whitespace-only regex suffix. -/
def allWS (cs : List Char) : Bool := cs.all wsChar

/-- A tail matching dot-star then optional whitespace: after removing the
maximal whitespace suffix, no newline may remain (dot does not match
newline in the Go regexp syntax). -/
def dotStarWS (cs : List Char) : Bool :=
  ((cs.reverse.dropWhile wsChar).reverse).all (fun c => !(c = '\n'))

/-- The keyword characters of the directive marker. -/
def borsChars : List Char := ['b', 'o', 'r', 's']

/-- After the marker and at least one whitespace character, the rest of a
merge directive line. -/
def mergeTail (cs : List Char) : Bool :=
  (match stripLit ['r', '+'] cs with
   | some rest => allWS rest
   | none => false) ||
  (match stripLit ['r', '='] cs with
   | some rest => dotStarWS rest
   | none => false) ||
  (match stripLit ['m', 'e', 'r', 'g', 'e'] cs with
   | some rest => allWS rest
   | none => false) ||
  (match stripLit ['m', 'e', 'r', 'g', 'e', '='] cs with
   | some rest => dotStarWS rest
   | none => false)

/-- After the marker and at least one whitespace character, the rest of a
cancel directive line. -/
def cancelTail (cs : List Char) : Bool :=
  (match stripLit ['r', '-'] cs with
   | some rest => allWS rest
   | none => false) ||
  (match stripLit ['m', 'e', 'r', 'g', 'e', '-'] cs with
   | some rest => allWS rest
   | none => false) ||
  (match stripLit ['c', 'a', 'n', 'c', 'e', 'l'] cs with
   | some rest => allWS rest
   | none => false)

/-- Whether a line matches an anchored bors directive with the given tail
classifier: optional whitespace, the marker, mandatory whitespace, tail. -/
def borsLine (tail : List Char → Bool) (line : List Char) : Bool :=
  match stripLit borsChars (line.dropWhile wsChar) with
  | none => false
  | some rest =>
    match rest with
    | [] => false
    | c :: cs => wsChar c && tail (cs.dropWhile wsChar)

/-- The merge directive regex of state.go. -/
def matchBorsMerge (line : List Char) : Bool := borsLine mergeTail line

/-- The cancel directive regex of state.go. -/
def matchBorsCancel (line : List Char) : Bool := borsLine cancelTail line

/-- Split a comment body on newlines (strings.Split on a newline). -/
def splitNL : List Char → List (List Char)
  | [] => [[]]
  | c :: cs =>
    if c = '\n' then [] :: splitNL cs
    else
      match splitNL cs with
      | [] => [[c]]
      | l :: ls => (c :: l) :: ls

/-- Process one comment body for one pull request: each matching line
overwrites the intent recorded so far (state.go comment callback). -/
def applyComment (numbers : List (PullRequestNumber × Bool))
    (n : PullRequestNumber) (msg : List Char) :
    List (PullRequestNumber × Bool) :=
  (splitNL msg).foldl
    (fun m line =>
      let m1 := if matchBorsMerge line then insertA m n false else m
      if matchBorsCancel line then insertA m1 n true else m1)
    numbers

/-- ToDecoratedWithPullRequests transitions the state to another which is
decorated with data on mergeable and cancellable pull requests (state.go).
The adapter is embedded as the comment stream, delivered in ascending
creation order, and the mergeable-head oracle. -/
def State.ToDecoratedWithPullRequests (os : State)
    (comments : List (PullRequestNumber × List Char))
    (getHead : PullRequestNumber → Option CommitID) : State :=
  let numbers0 :=
    os.Branches.foldl
      (fun m p => insertA m p.1.PullRequestNumber false)
      ([] : List (PullRequestNumber × Bool))
  let numbers := comments.foldl (fun m c => applyComment m c.1 c.2) numbers0
  numbers.foldl
    (fun ns p =>
      if p.2 then
        { ns with CancelledPullRequests :=
            insertSet ns.CancelledPullRequests p.1 }
      else
        match getHead p.1 with
        | some cid =>
          { ns with MergeablePullRequests :=
              insertA ns.MergeablePullRequests p.1 cid }
        | none => ns)
    os

/-- ToPrunedCancelledPullRequests transitions the state to another in
which the merge candidate branches for cancelled pull requests have been
deleted; the cancelled set is then reset (state.go). -/
def State.ToPrunedCancelledPullRequests (os : State) : State :=
  { os with
    Branches :=
      os.Branches.filter
        (fun p => !(os.CancelledPullRequests.contains p.1.PullRequestNumber))
    CancelledPullRequests := [] }

/-- NextMergeablePullRequest returns the number of a pull request for
which merge candidate branches could be created; 0 if none (state.go). -/
def State.NextMergeablePullRequest (os : State) : PullRequestNumber :=
  os.MergeablePullRequests.foldl
    (fun next p =>
      if os.Branches.any (fun b => decide (b.1.PullRequestNumber = p.1))
      then next
      else if next = 0 || decide (next > p.1) then p.1 else next)
    0

/-- CreateBranchesForPullRequest records the adapter operations performed
to create new merge candidate branches for a mergeable pull request
(state.go).  The Go method mutates no State; its observable effect is the
trace of adapter calls, returned here. -/
def State.CreateBranchesForPullRequest (os : State) (t : PipelineTree)
    (number : PullRequestNumber) : List AdapterOp :=
  match lookupA os.MergeablePullRequests number with
  | none => []
  | some pullRequestHead =>
    (t.foldl
      (fun (acc : List AdapterOp × Int) p =>
        if p.2.IsNotInPipeline then acc
        else
          (acc.1 ++
            [AdapterOp.CreateBranch ⟨acc.2 + 1, number⟩
                (((lookupA os.Branches p.1).map
                  (fun bv => bv.CommitID)).getD ""),
              AdapterOp.MergeBranch ⟨acc.2 + 1, number⟩ pullRequestHead],
            acc.2 + 1))
      ([AdapterOp.CreateBranch ⟨1, number⟩ os.Base,
        AdapterOp.MergeBranch ⟨1, number⟩ pullRequestHead], 1)).1

/-! ### Claim C4: comment classification -/

/-- The net effect of one comment line on the intent of its pull request:
a cancel directive records true, a merge directive records false, any
other line records nothing.  A line matching both patterns (impossible
for the two regexes) would end as cancel, exactly as the Go code does. -/
def lineVerdict (line : List Char) : Option Bool :=
  if matchBorsCancel line then some true
  else if matchBorsMerge line then some false
  else none

/-- All intent updates contributed by one comment body, in line order. -/
def commentVerdicts (msg : List Char) : List Bool :=
  (splitNL msg).filterMap lineVerdict

/-- All intent updates for one pull request across the comment stream, in
delivery order. -/
def prVerdicts (comments : List (PullRequestNumber × List Char))
    (n : PullRequestNumber) : List Bool :=
  ((comments.filter (fun c => decide (c.1 = n))).map
    (fun c => commentVerdicts c.2)).flatten

/-- Whether a pull request currently owns at least one candidate branch. -/
def ownsBranch (os : State) (n : PullRequestNumber) : Bool :=
  os.Branches.any (fun p => decide (p.1.PullRequestNumber = n))

/-- Whether the classifier tracks an intent for this pull request: it owns
a candidate branch, or some comment line mentions it with a directive. -/
def relevantPR (os : State) (comments : List (PullRequestNumber × List Char))
    (n : PullRequestNumber) : Bool :=
  ownsBranch os n || !(prVerdicts comments n).isEmpty

/-- The final recorded intent of a pull request: the last directive wins,
and the seed intent is merge (false). -/
def finalIntent (comments : List (PullRequestNumber × List Char))
    (n : PullRequestNumber) : Bool :=
  ((prVerdicts comments n).getLast?).getD false

theorem insertA_insertA {α β : Type} [DecidableEq α]
    (l : List (α × β)) (k : α) (v w : β) :
    insertA (insertA l k v) k w = insertA l k w := by
  induction l with
  | nil => simp [insertA]
  | cons p l ih =>
    rw [insertA]
    by_cases hp : p.1 = k
    · rw [if_pos hp, insertA, if_pos rfl, insertA, if_pos hp]
    · rw [if_neg hp, insertA, if_neg hp, ih, insertA, if_neg hp]

theorem lookupA_eq_none_iff {α β : Type} [DecidableEq α]
    (l : List (α × β)) (k : α) :
    lookupA l k = none ↔ containsA l k = false := by
  unfold containsA
  cases h : lookupA l k <;> simp [h]

theorem applyComment_verdicts (m : List (PullRequestNumber × Bool))
    (n : PullRequestNumber) (msg : List Char) :
    applyComment m n msg =
      (commentVerdicts msg).foldl (fun m v => insertA m n v) m := by
  rw [applyComment, commentVerdicts]
  generalize splitNL msg = lines
  induction lines generalizing m with
  | nil => rfl
  | cons line lines ih =>
    rw [List.foldl_cons, List.filterMap_cons]
    have hstep :
        (let m1 := if matchBorsMerge line then insertA m n false else m
         if matchBorsCancel line then insertA m1 n true else m1) =
          match lineVerdict line with
          | some v => insertA m n v
          | none => m := by
      rw [lineVerdict]
      by_cases hcan : matchBorsCancel line = true
      · rw [if_pos hcan, if_pos hcan]
        by_cases hmer : matchBorsMerge line = true
        · rw [if_pos hmer, insertA_insertA]
        · rw [if_neg hmer]
      · rw [if_neg hcan, if_neg hcan]
        by_cases hmer : matchBorsMerge line = true
        · rw [if_pos hmer, if_pos hmer]
        · rw [if_neg hmer, if_neg hmer]
    rw [hstep]
    cases hv : lineVerdict line with
    | none => rw [ih m]
    | some v => rw [List.foldl_cons, ih (insertA m n v)]

theorem foldl_insert_lookup_self (n : PullRequestNumber) (vs : List Bool) :
    ∀ m, lookupA (vs.foldl (fun m v => insertA m n v) m) n =
      (vs.getLast?).or (lookupA m n) := by
  induction vs with
  | nil => intro m; simp
  | cons v vs ih =>
    intro m
    rw [List.foldl_cons, ih, List.getLast?_cons]
    cases hl : vs.getLast? with
    | none => simp [lookupA_insertA]
    | some w => simp

theorem foldl_insert_lookup_other (n k : PullRequestNumber) (hk : ¬ n = k)
    (vs : List Bool) :
    ∀ m, lookupA (vs.foldl (fun m v => insertA m n v) m) k = lookupA m k := by
  induction vs with
  | nil => intro m; rfl
  | cons v vs ih =>
    intro m
    rw [List.foldl_cons, ih, lookupA_insertA, if_neg hk]

theorem numbers_fold_lookup
    (comments : List (PullRequestNumber × List Char)) :
    ∀ (m : List (PullRequestNumber × Bool)) (n : PullRequestNumber),
      lookupA (comments.foldl (fun m c => applyComment m c.1 c.2) m) n =
        ((prVerdicts comments n).getLast?).or (lookupA m n) := by
  induction comments with
  | nil => intro m n; simp [prVerdicts]
  | cons c cs ih =>
    intro m n
    have hpr : prVerdicts (c :: cs) n =
        (if c.1 = n then commentVerdicts c.2 else []) ++ prVerdicts cs n := by
      by_cases hc : c.1 = n
      · rw [prVerdicts, prVerdicts, List.filter_cons_of_pos (by simp [hc]),
          List.map_cons, if_pos hc]
        simp
      · rw [prVerdicts, prVerdicts, List.filter_cons_of_neg (by simp [hc]),
          if_neg hc]
        simp
    rw [List.foldl_cons, ih, applyComment_verdicts, hpr]
    by_cases hc : c.1 = n
    · have hxx :
          ∀ x, (commentVerdicts c.2).foldl (fun m v => insertA m c.1 v) x =
            (commentVerdicts c.2).foldl (fun m v => insertA m n v) x := by
        intro x; rw [hc]
      rw [hxx, foldl_insert_lookup_self, if_pos hc, List.getLast?_append,
        Option.or_assoc]
    · rw [foldl_insert_lookup_other c.1 n hc, if_neg hc, List.nil_append]

theorem numbers0_fold_lookup (bs : List (BranchKey × BranchValue)) :
    ∀ (m : List (PullRequestNumber × Bool)) (n : PullRequestNumber),
      lookupA
          (bs.foldl (fun m p => insertA m p.1.PullRequestNumber false) m) n =
        if bs.any (fun p => decide (p.1.PullRequestNumber = n)) then
          some false
        else lookupA m n := by
  induction bs with
  | nil => intro m n; simp
  | cons p bs ih =>
    intro m n
    rw [List.foldl_cons, ih, List.any_cons]
    by_cases hp : p.1.PullRequestNumber = n <;>
      by_cases hb :
          bs.any (fun p => decide (p.1.PullRequestNumber = n)) = true <;>
      simp [hp, hb, lookupA_insertA]

/-- The two intent folds of the classifier, characterised: the working
intent map holds the final intent of exactly the relevant pull requests. -/
theorem numbers_lookup (os : State)
    (comments : List (PullRequestNumber × List Char))
    (n : PullRequestNumber) :
    lookupA
        (comments.foldl (fun m c => applyComment m c.1 c.2)
          (os.Branches.foldl
            (fun m p => insertA m p.1.PullRequestNumber false)
            ([] : List (PullRequestNumber × Bool)))) n =
      if relevantPR os comments n then some (finalIntent comments n)
      else none := by
  rw [numbers_fold_lookup, numbers0_fold_lookup, relevantPR, finalIntent,
    ownsBranch]
  cases hv : (prVerdicts comments n).getLast? with
  | some v =>
    have hne : ¬ (prVerdicts comments n).isEmpty = true := by
      intro hx
      rw [List.isEmpty_iff.mp hx] at hv
      simp at hv
    simp [hne]
  | none =>
    have hnil : prVerdicts comments n = [] :=
      List.getLast?_eq_none_iff.mp hv
    simp only [Option.none_or, hnil, List.isEmpty_nil, Bool.not_true,
      Bool.or_false]
    by_cases hb :
        os.Branches.any (fun p => decide (p.1.PullRequestNumber = n)) = true
    · simp [hb]
    · simp [hb, lookupA_nil]

theorem nodup_numbers0 (bs : List (BranchKey × BranchValue)) :
    ∀ m, NodupKeysA m →
      NodupKeysA
        (bs.foldl (fun m p => insertA m p.1.PullRequestNumber false) m) := by
  induction bs with
  | nil => intro m hm; exact hm
  | cons p bs ih =>
    intro m hm
    exact ih _ (nodupKeysA_insertA _ _ _ hm)

theorem nodup_applyComment (m : List (PullRequestNumber × Bool))
    (n : PullRequestNumber) (msg : List Char) (hm : NodupKeysA m) :
    NodupKeysA (applyComment m n msg) := by
  rw [applyComment_verdicts]
  generalize commentVerdicts msg = vs
  induction vs generalizing m with
  | nil => exact hm
  | cons v vs ih =>
    rw [List.foldl_cons]
    exact ih _ (nodupKeysA_insertA _ _ _ hm)

theorem nodup_numbers (os : State)
    (comments : List (PullRequestNumber × List Char)) :
    NodupKeysA
      (comments.foldl (fun m c => applyComment m c.1 c.2)
        (os.Branches.foldl
          (fun m p => insertA m p.1.PullRequestNumber false)
          ([] : List (PullRequestNumber × Bool)))) := by
  have h0 : NodupKeysA
      (os.Branches.foldl
        (fun m p => insertA m p.1.PullRequestNumber false)
        ([] : List (PullRequestNumber × Bool))) :=
    nodup_numbers0 _ _ (by simp [NodupKeysA])
  generalize (os.Branches.foldl
      (fun m p => insertA m p.1.PullRequestNumber false)
      ([] : List (PullRequestNumber × Bool))) = m0 at h0
  induction comments generalizing m0 with
  | nil => exact h0
  | cons c cs ih =>
    rw [List.foldl_cons]
    exact ih _ (nodup_applyComment _ _ _ h0)

theorem decFold_base_branches (getHead : PullRequestNumber → Option CommitID)
    (l : List (PullRequestNumber × Bool)) :
    ∀ acc : State,
      ((l.foldl
          (fun ns p =>
            if p.2 then
              { ns with CancelledPullRequests :=
                  insertSet ns.CancelledPullRequests p.1 }
            else
              match getHead p.1 with
              | some cid =>
                { ns with MergeablePullRequests :=
                    insertA ns.MergeablePullRequests p.1 cid }
              | none => ns)
          acc).Base = acc.Base) ∧
      ((l.foldl
          (fun ns p =>
            if p.2 then
              { ns with CancelledPullRequests :=
                  insertSet ns.CancelledPullRequests p.1 }
            else
              match getHead p.1 with
              | some cid =>
                { ns with MergeablePullRequests :=
                    insertA ns.MergeablePullRequests p.1 cid }
              | none => ns)
          acc).Branches = acc.Branches) := by
  induction l with
  | nil => intro acc; exact ⟨rfl, rfl⟩
  | cons p l ih =>
    intro acc
    rw [List.foldl_cons]
    refine ⟨?_, ?_⟩
    · rw [(ih _).1]
      by_cases hp : p.2 = true
      · simp [hp]
      · simp only [hp, Bool.false_eq_true, if_false]
        cases getHead p.1 <;> rfl
    · rw [(ih _).2]
      by_cases hp : p.2 = true
      · simp [hp]
      · simp only [hp, Bool.false_eq_true, if_false]
        cases getHead p.1 <;> rfl

theorem decFold_cancelled (getHead : PullRequestNumber → Option CommitID)
    (l : List (PullRequestNumber × Bool)) :
    ∀ (acc : State) (n : PullRequestNumber),
      (n ∈ (l.foldl
          (fun ns p =>
            if p.2 then
              { ns with CancelledPullRequests :=
                  insertSet ns.CancelledPullRequests p.1 }
            else
              match getHead p.1 with
              | some cid =>
                { ns with MergeablePullRequests :=
                    insertA ns.MergeablePullRequests p.1 cid }
              | none => ns)
          acc).CancelledPullRequests ↔
        n ∈ acc.CancelledPullRequests ∨ (n, true) ∈ l) := by
  induction l with
  | nil => intro acc n; simp
  | cons p l ih =>
    intro acc n
    rw [List.foldl_cons, ih]
    by_cases hp : p.2 = true
    · simp only [hp, if_true]
      rw [List.mem_cons]
      constructor
      · rintro (hc | hc)
        · rcases (mem_insertSet _ _ _).mp hc with h1 | h1
          · exact Or.inl h1
          · subst h1
            refine Or.inr (Or.inl ?_)
            rcases p with ⟨p1, p2⟩
            simp only at hp
            subst hp
            rfl
        · exact Or.inr (Or.inr hc)
      · rintro (hc | hc | hc)
        · exact Or.inl ((mem_insertSet _ _ _).mpr (Or.inl hc))
        · rw [← hc]
          exact Or.inl ((mem_insertSet _ _ _).mpr (Or.inr rfl))
        · exact Or.inr hc
    · simp only [hp, Bool.false_eq_true, if_false]
      have hC :
          (match getHead p.1 with
            | some cid =>
              { acc with MergeablePullRequests :=
                  insertA acc.MergeablePullRequests p.1 cid }
            | none => acc).CancelledPullRequests =
            acc.CancelledPullRequests := by
        cases getHead p.1 <;> rfl
      rw [hC, List.mem_cons]
      constructor
      · rintro (hc | hc)
        · exact Or.inl hc
        · exact Or.inr (Or.inr hc)
      · rintro (hc | hc | hc)
        · exact Or.inl hc
        · exfalso
          rcases p with ⟨p1, p2⟩
          injection hc with h1 h2
          rw [← h2] at hp
          exact hp rfl
        · exact Or.inr hc

theorem decFold_mergeable (getHead : PullRequestNumber → Option CommitID)
    (l : List (PullRequestNumber × Bool)) :
    ∀ (acc : State) (n : PullRequestNumber), NodupKeysA l →
      lookupA (l.foldl
          (fun ns p =>
            if p.2 then
              { ns with CancelledPullRequests :=
                  insertSet ns.CancelledPullRequests p.1 }
            else
              match getHead p.1 with
              | some cid =>
                { ns with MergeablePullRequests :=
                    insertA ns.MergeablePullRequests p.1 cid }
              | none => ns)
          acc).MergeablePullRequests n =
        match lookupA l n with
        | some false =>
          (match getHead n with
           | some h => some h
           | none => lookupA acc.MergeablePullRequests n)
        | _ => lookupA acc.MergeablePullRequests n := by
  induction l with
  | nil =>
    intro acc n _
    rfl
  | cons p l ih =>
    intro acc n hnd
    have hndl : NodupKeysA l := by
      unfold NodupKeysA at hnd ⊢
      rw [List.map_cons, List.nodup_cons] at hnd
      exact hnd.2
    rw [List.foldl_cons, ih _ _ hndl, lookupA_cons]
    by_cases hk : p.1 = n
    · have hlnone : lookupA l n = none := by
        rw [lookupA_eq_none_iff]
        unfold NodupKeysA at hnd
        rw [List.map_cons, List.nodup_cons] at hnd
        cases hc : containsA l n with
        | false => rfl
        | true =>
          exact absurd (hk ▸ mem_keys_of_containsA l n hc) hnd.1
      rw [hlnone, if_pos hk]
      rcases Bool.eq_false_or_eq_true p.2 with hp | hp
      · rw [hp]
        simp only [if_true]
      · rw [hp]
        simp only [Bool.false_eq_true, if_false]
        cases hh : getHead p.1 with
        | some cid =>
          simp only []
          rw [lookupA_insertA, if_pos hk, hk] at *
          rw [hh]
        | none =>
          simp only []
          rw [hk] at hh
          rw [hh]
    · rw [if_neg hk]
      have hM :
          lookupA
            ((if p.2 = true then
                { acc with CancelledPullRequests :=
                    insertSet acc.CancelledPullRequests p.1 }
              else
                match getHead p.1 with
                | some cid =>
                  { acc with MergeablePullRequests :=
                      insertA acc.MergeablePullRequests p.1 cid }
                | none => acc) : State).MergeablePullRequests n =
            lookupA acc.MergeablePullRequests n := by
        by_cases hp : p.2 = true
        · rw [if_pos hp]
        · rw [if_neg hp]
          cases getHead p.1 with
          | some cid =>
            simp only []
            rw [lookupA_insertA, if_neg hk]
          | none => rfl
      rw [hM]

/-- Full characterisation of the decoration transition: base and branches
unchanged, the cancelled set gains exactly the relevant pull requests of
final intent cancel, and the mergeable map is overwritten at exactly the
relevant merge-intent numbers for which the adapter reports a head. -/
theorem decorate_spec (os : State)
    (comments : List (PullRequestNumber × List Char))
    (getHead : PullRequestNumber → Option CommitID) :
    ((os.ToDecoratedWithPullRequests comments getHead).Base = os.Base ∧
      (os.ToDecoratedWithPullRequests comments getHead).Branches =
        os.Branches) ∧
    (∀ n,
      n ∈ (os.ToDecoratedWithPullRequests comments
            getHead).CancelledPullRequests ↔
        n ∈ os.CancelledPullRequests ∨
          (relevantPR os comments n = true ∧
            finalIntent comments n = true)) ∧
    (∀ n,
      lookupA (os.ToDecoratedWithPullRequests comments
          getHead).MergeablePullRequests n =
        if relevantPR os comments n = true ∧ finalIntent comments n = false
        then
          match getHead n with
          | some h => some h
          | none => lookupA os.MergeablePullRequests n
        else lookupA os.MergeablePullRequests n) := by
  rw [State.ToDecoratedWithPullRequests]
  refine ⟨⟨(decFold_base_branches getHead _ os).1,
    (decFold_base_branches getHead _ os).2⟩, ?_, ?_⟩
  · intro n
    rw [decFold_cancelled getHead _ os n]
    have hmem :
        ((n, true) ∈
            comments.foldl (fun m c => applyComment m c.1 c.2)
              (os.Branches.foldl
                (fun m p => insertA m p.1.PullRequestNumber false)
                ([] : List (PullRequestNumber × Bool)))) ↔
          (relevantPR os comments n = true ∧
            finalIntent comments n = true) := by
      constructor
      · intro hm
        have := lookupA_eq_some_of_mem _ (n, true) (nodup_numbers os comments)
          hm
        rw [numbers_lookup os comments n] at this
        by_cases hr : relevantPR os comments n = true
        · rw [if_pos hr] at this
          have h2 : finalIntent comments n = true := by
            have h3 : some (finalIntent comments n) = some true := this
            injection h3
          exact ⟨hr, h2⟩
        · rw [if_neg hr] at this
          exact absurd this (by simp)
      · rintro ⟨hr, hi⟩
        have : lookupA
            (comments.foldl (fun m c => applyComment m c.1 c.2)
              (os.Branches.foldl
                (fun m p => insertA m p.1.PullRequestNumber false)
                ([] : List (PullRequestNumber × Bool)))) n = some true := by
          rw [numbers_lookup os comments n, if_pos hr, hi]
        exact mem_of_lookupA_eq_some _ _ _ this
    rw [hmem]
  · intro n
    rw [decFold_mergeable getHead _ os n (nodup_numbers os comments),
      numbers_lookup os comments n]
    by_cases hr : relevantPR os comments n = true
    · rw [if_pos hr]
      cases hi : finalIntent comments n with
      | false => simp [hr, hi]
      | true => simp [hr, hi]
    · rw [if_neg hr]
      simp [hr]

/-- Claim C4: one intent is computed per pull-request number: numbers
owning a candidate branch are seeded with intent merge, matching comment
lines override the intent in delivery and line order, and the final maps
record cancel intents in the cancelled set and merge intents in the
mergeable map, the latter exactly when the adapter reports a head.  Base
and branches are untouched. -/
theorem claim_C4_comment_classifier (os : State)
    (comments : List (PullRequestNumber × List Char))
    (getHead : PullRequestNumber → Option CommitID) :
    ((os.ToDecoratedWithPullRequests comments getHead).Base = os.Base ∧
      (os.ToDecoratedWithPullRequests comments getHead).Branches =
        os.Branches) ∧
    (∀ n,
      n ∈ (os.ToDecoratedWithPullRequests comments
            getHead).CancelledPullRequests ↔
        n ∈ os.CancelledPullRequests ∨
          (relevantPR os comments n = true ∧
            finalIntent comments n = true)) ∧
    (∀ n,
      lookupA (os.ToDecoratedWithPullRequests comments
          getHead).MergeablePullRequests n =
        if relevantPR os comments n = true ∧ finalIntent comments n = false
        then
          match getHead n with
          | some h => some h
          | none => lookupA os.MergeablePullRequests n
        else lookupA os.MergeablePullRequests n) :=
  decorate_spec os comments getHead

/-! ### Claim C7: reachable disjointness -/

/-- States visible inside the inner fetch-and-prune loop of the state
machine (main.go StateMachine): a fresh snapshot, or a snapshot pruned of
orphans with its own pipeline tree. -/
inductive ReachInner : State → Prop
  | fetched (base : CommitID) (listed : List BranchKey)
      (getBranch : BranchKey → BranchValue) :
      ReachInner (FetchMergeCandidateBranchState base listed getBranch)
  | pruned (s : State) (h : ReachInner s) :
      ReachInner (s.ToPrunedOrphanedBranches s.BuildPipelineTree)

/-- States visible in the outer part of the state machine cycle, after
decoration with pull-request intents. -/
inductive ReachOuter : State → Prop
  | decorated (s : State) (h : ReachInner s)
      (comments : List (PullRequestNumber × List Char))
      (getHead : PullRequestNumber → Option CommitID) :
      ReachOuter (s.ToDecoratedWithPullRequests comments getHead)
  | prunedCancelled (s : State) (h : ReachOuter s) :
      ReachOuter s.ToPrunedCancelledPullRequests

/-- A state reachable through the transitions of the control loop. -/
def Reachable (s : State) : Prop := ReachInner s ∨ ReachOuter s

theorem reachInner_empty_maps (s : State) (h : ReachInner s) :
    s.MergeablePullRequests = [] ∧ s.CancelledPullRequests = [] := by
  induction h with
  | fetched base listed getBranch => exact ⟨rfl, rfl⟩
  | pruned s h ih => exact ih

theorem reachOuter_disjoint (s : State) (h : ReachOuter s) :
    ∀ n, containsA s.MergeablePullRequests n = true →
      ¬ n ∈ s.CancelledPullRequests := by
  induction h with
  | decorated s h comments getHead =>
    intro n hm hc
    rcases decorate_spec s comments getHead with ⟨_, hC, hM⟩
    rcases reachInner_empty_maps s h with ⟨hM0, hC0⟩
    rcases (hC n).mp hc with h1 | h1
    · rw [hC0] at h1
      simp at h1
    · have := hM n
      rw [hM0] at this
      unfold containsA at hm
      by_cases hif : relevantPR s comments n = true ∧
          finalIntent comments n = false
      · exact absurd h1.2 (by rw [hif.2]; simp)
      · rw [if_neg hif, lookupA_nil] at this
        rw [this] at hm
        simp at hm
  | prunedCancelled s h ih =>
    intro n hm hc
    rw [State.ToPrunedCancelledPullRequests] at hc
    simp at hc

/-- Claim C7: for every state reachable through the transitions of the
control loop, no pull-request number is simultaneously a key of the
mergeable map and a member of the cancelled set. -/
theorem claim_C7_disjoint_sets (s : State) (n : PullRequestNumber)
    (h : Reachable s)
    (hm : containsA s.MergeablePullRequests n = true) :
    ¬ n ∈ s.CancelledPullRequests := by
  rcases h with h | h
  · rcases reachInner_empty_maps s h with ⟨hM0, _⟩
    rw [hM0] at hm
    simp [containsA, lookupA_nil] at hm
  · exact reachOuter_disjoint s h n hm

/-- A concrete decorated state used to witness claim C7. -/
def c7WitnessState : State :=
  (FetchMergeCandidateBranchState "main" []
      (fun _ => ⟨[], false, false, false, ""⟩)).ToDecoratedWithPullRequests
    [(1, strChars "bors r+")] (fun _ => some "h1")

/-- Witness for claim C7: a reachable state whose mergeable map holds
pull request 1, which is then not in the cancelled set. -/
theorem claim_C7_witness :
    containsA c7WitnessState.MergeablePullRequests 1 = true ∧
      ¬ (1 : Int) ∈ c7WitnessState.CancelledPullRequests :=
  ⟨by decide,
    claim_C7_disjoint_sets c7WitnessState 1
      (Or.inr
        (ReachOuter.decorated _
          (ReachInner.fetched "main" [] (fun _ => ⟨[], false, false, false, ""⟩))
          [(1, strChars "bors r+")] (fun _ => some "h1")))
      (by decide)⟩

/-! ### Claim C5: scheduler -/

/-- The root commit used when creating a branch at a pipeline tip: the
head commit of the tip branch, with the Go zero string for a key missing
from the branch map. -/
def rootOf (os : State) (pk : BranchKey) : CommitID :=
  ((lookupA os.Branches pk).map (fun bv => bv.CommitID)).getD ""

/-- The operations scheduled for the viable pipeline tips, with pipeline
counters taking successive values from the given start. -/
def tipOps (os : State) (n : PullRequestNumber) (h : CommitID) :
    Int → List (BranchKey × PipelineValue) → List AdapterOp
  | _, [] => []
  | c, e :: es =>
    AdapterOp.CreateBranch ⟨c, n⟩ (rootOf os e.1) ::
      AdapterOp.MergeBranch ⟨c, n⟩ h :: tipOps os n h (c + 1) es

theorem createFold_spec (os : State) (n : PullRequestNumber) (h : CommitID) :
    ∀ (t : PipelineTree) (ops0 : List AdapterOp) (c0 : Int),
      (t.foldl
        (fun (acc : List AdapterOp × Int) p =>
          if p.2.IsNotInPipeline then acc
          else
            (acc.1 ++
              [AdapterOp.CreateBranch ⟨acc.2 + 1, n⟩
                  (((lookupA os.Branches p.1).map
                    (fun bv => bv.CommitID)).getD ""),
                AdapterOp.MergeBranch ⟨acc.2 + 1, n⟩ h],
              acc.2 + 1))
        (ops0, c0)).1 =
      ops0 ++ tipOps os n h (c0 + 1) (t.filter (fun e => !e.2.IsNotInPipeline)) := by
  intro t
  induction t with
  | nil => intro ops0 c0; simp [tipOps]
  | cons e t ih =>
    intro ops0 c0
    rw [List.foldl_cons]
    cases he : e.2.IsNotInPipeline with
    | true =>
      simp only [he, if_true]
      rw [ih, List.filter_cons_of_neg (by simp [he])]
    | false =>
      simp only [he, Bool.false_eq_true, if_false]
      rw [ih, List.filter_cons_of_pos (by simp [he])]
      rw [tipOps]
      simp [rootOf, List.append_assoc]

/-- The selection fold of NextMergeablePullRequest, as a function of the
visited mergeable entries and the running candidate. -/
def nmpFold (os : State) (l : List (PullRequestNumber × CommitID))
    (next : PullRequestNumber) : PullRequestNumber :=
  l.foldl
    (fun next p =>
      if os.Branches.any (fun b => decide (b.1.PullRequestNumber = p.1))
      then next
      else if next = 0 || decide (next > p.1) then p.1 else next)
    next

theorem nextMergeable_eq_nmpFold (os : State) :
    os.NextMergeablePullRequest = nmpFold os os.MergeablePullRequests 0 :=
  rfl

theorem nmpFold_cons (os : State) (p : PullRequestNumber × CommitID)
    (l : List (PullRequestNumber × CommitID)) (next : PullRequestNumber) :
    nmpFold os (p :: l) next =
      nmpFold os l
        (if os.Branches.any (fun b => decide (b.1.PullRequestNumber = p.1))
          then next
          else if next = 0 || decide (next > p.1) then p.1 else next) := rfl

theorem nmp_fold (os : State) :
    ∀ (l : List (PullRequestNumber × CommitID)) (next : PullRequestNumber),
      (∀ p ∈ l, 0 < p.1) → 0 ≤ next →
      (nmpFold os l next = next ∧
        ∀ p ∈ l, ownsBranch os p.1 = false → next ≠ 0 ∧ next ≤ p.1) ∨
      ((∃ p ∈ l, ownsBranch os p.1 = false ∧ p.1 = nmpFold os l next) ∧
        0 < nmpFold os l next ∧
        (∀ q ∈ l, ownsBranch os q.1 = false → nmpFold os l next ≤ q.1) ∧
        (next = 0 ∨ nmpFold os l next ≤ next)) := by
  intro l
  induction l with
  | nil =>
    intro next hpos hnn
    left
    exact ⟨rfl, by intro p hp; simp at hp⟩
  | cons p l ih =>
    intro next hpos hnn
    have hposl : ∀ q ∈ l, 0 < q.1 :=
      fun q hq => hpos q (List.mem_cons_of_mem _ hq)
    have hpp : 0 < p.1 := hpos p (List.mem_cons_self _ _)
    rw [nmpFold_cons]
    by_cases hown : ownsBranch os p.1 = true
    · have hstep :
          (if os.Branches.any (fun b => decide (b.1.PullRequestNumber = p.1))
            then next
            else if next = 0 || decide (next > p.1) then p.1 else next) =
            next := by
        rw [ownsBranch] at hown
        rw [if_pos hown]
      rw [hstep]
      rcases ih next hposl hnn with ⟨heq, hall⟩ | ⟨hex, hpos2, hmin, hle⟩
      · left
        refine ⟨heq, ?_⟩
        intro q hq hq2
        rcases List.mem_cons.mp hq with h1 | h1
        · subst h1; rw [hown] at hq2; exact absurd hq2 (by simp)
        · exact hall q h1 hq2
      · right
        rcases hex with ⟨r, hr, hrq, hrv⟩
        refine ⟨⟨r, List.mem_cons_of_mem _ hr, hrq, hrv⟩, hpos2, ?_, hle⟩
        intro q hq hq2
        rcases List.mem_cons.mp hq with h1 | h1
        · subst h1; rw [hown] at hq2; exact absurd hq2 (by simp)
        · exact hmin q h1 hq2
    · have hownf : ownsBranch os p.1 = false := by
        cases hx : ownsBranch os p.1 with
        | false => rfl
        | true => exact absurd hx hown
      have hstep :
          (if os.Branches.any (fun b => decide (b.1.PullRequestNumber = p.1))
            then next
            else if next = 0 || decide (next > p.1) then p.1 else next) =
            (if next = 0 || decide (next > p.1) then p.1 else next) := by
        rw [ownsBranch] at hownf
        rw [if_neg (by rw [hownf]; simp)]
      rw [hstep]
      by_cases hcase : (next = 0 || decide (next > p.1)) = true
      · rw [if_pos hcase]
        rcases ih p.1 hposl (le_of_lt hpp) with ⟨heq, hall⟩ |
          ⟨hex, hpos2, hmin, hle⟩
        · right
          refine ⟨⟨p, List.mem_cons_self _ _, hownf, heq.symm⟩,
            by rw [heq]; exact hpp, ?_, ?_⟩
          · intro q hq hq2
            rcases List.mem_cons.mp hq with h1 | h1
            · subst h1; rw [heq]
            · rw [heq]; exact (hall q h1 hq2).2
          · simp only [Bool.or_eq_true, decide_eq_true_eq] at hcase
            rcases hcase with h1 | h1
            · exact Or.inl h1
            · right; rw [heq]; exact le_of_lt h1
        · right
          have hlep : nmpFold os l p.1 ≤ p.1 := by
            rcases hle with h1 | h1
            · exact absurd h1 (ne_of_gt hpp)
            · exact h1
          rcases hex with ⟨r, hr, hrq, hrv⟩
          refine ⟨⟨r, List.mem_cons_of_mem _ hr, hrq, hrv⟩, hpos2, ?_, ?_⟩
          · intro q hq hq2
            rcases List.mem_cons.mp hq with h1 | h1
            · subst h1; exact hlep
            · exact hmin q h1 hq2
          · simp only [Bool.or_eq_true, decide_eq_true_eq] at hcase
            rcases hcase with h1 | h1
            · exact Or.inl h1
            · right; exact le_trans hlep (le_of_lt h1)
      · rw [if_neg hcase]
        simp only [Bool.or_eq_true, decide_eq_true_eq, not_or] at hcase
        have hne : ¬ next = 0 := fun h => hcase.1 h
        have hlep : next ≤ p.1 := le_of_not_lt hcase.2
        rcases ih next hposl hnn with ⟨heq, hall⟩ | ⟨hex, hpos2, hmin, hle⟩
        · left
          refine ⟨heq, ?_⟩
          intro q hq hq2
          rcases List.mem_cons.mp hq with h1 | h1
          · subst h1; exact ⟨hne, hlep⟩
          · exact hall q h1 hq2
        · right
          rcases hex with ⟨r, hr, hrq, hrv⟩
          refine ⟨⟨r, List.mem_cons_of_mem _ hr, hrq, hrv⟩, hpos2, ?_, hle⟩
          intro q hq hq2
          rcases List.mem_cons.mp hq with h1 | h1
          · subst h1
            rcases hle with h1 | h1
            · exact absurd h1 hne
            · exact le_trans h1 hlep
          · exact hmin q h1 hq2

/-- Claim C5: the scheduler selects the smallest mergeable pull-request
number without an existing candidate branch (0 if none), and branch
creation for a number with recorded head h consists of one branch keyed
(n, 1) rooted at the base plus, per viable tree entry in order, one
branch with successive pipeline counters 2, 3, and so on rooted at that
entry's head commit, each followed by a merge attempt of h. -/
theorem claim_C5_scheduler (os : State) (t : PipelineTree)
    (hpos : ∀ p ∈ os.MergeablePullRequests, 0 < p.1) :
    ((os.NextMergeablePullRequest = 0 ∧
        ∀ p ∈ os.MergeablePullRequests, ownsBranch os p.1 = true) ∨
      (0 < os.NextMergeablePullRequest ∧
        containsA os.MergeablePullRequests
          os.NextMergeablePullRequest = true ∧
        ownsBranch os os.NextMergeablePullRequest = false ∧
        ∀ p ∈ os.MergeablePullRequests, ownsBranch os p.1 = false →
          os.NextMergeablePullRequest ≤ p.1)) ∧
    (∀ (n : PullRequestNumber) (h : CommitID),
      lookupA os.MergeablePullRequests n = some h →
      os.CreateBranchesForPullRequest t n =
        AdapterOp.CreateBranch ⟨1, n⟩ os.Base ::
          AdapterOp.MergeBranch ⟨1, n⟩ h ::
            tipOps os n h 2 (t.filter (fun e => !e.2.IsNotInPipeline))) := by
  constructor
  · rw [nextMergeable_eq_nmpFold]
    rcases nmp_fold os os.MergeablePullRequests 0 hpos le_rfl with
      ⟨heq, hall⟩ | ⟨hex, hpos2, hmin, _⟩
    · left
      refine ⟨heq, ?_⟩
      intro p hp
      cases hx : ownsBranch os p.1 with
      | true => rfl
      | false => exact absurd rfl (hall p hp hx).1
    · right
      rcases hex with ⟨r, hr, hro, hrv⟩
      refine ⟨hpos2, ?_, ?_, hmin⟩
      · apply containsA_of_mem_keys
        exact List.mem_map.mpr ⟨r, hr, hrv⟩
      · rw [← hrv]; exact hro
  · intro n h hn
    have hunf : os.CreateBranchesForPullRequest t n =
        (t.foldl
          (fun (acc : List AdapterOp × Int) p =>
            if p.2.IsNotInPipeline then acc
            else
              (acc.1 ++
                [AdapterOp.CreateBranch ⟨acc.2 + 1, n⟩
                    (((lookupA os.Branches p.1).map
                      (fun bv => bv.CommitID)).getD ""),
                  AdapterOp.MergeBranch ⟨acc.2 + 1, n⟩ h],
                acc.2 + 1))
          ([AdapterOp.CreateBranch ⟨1, n⟩ os.Base,
            AdapterOp.MergeBranch ⟨1, n⟩ h], 1)).1 := by
      rw [State.CreateBranchesForPullRequest, hn]
    rw [hunf, createFold_spec os n h t
      [AdapterOp.CreateBranch ⟨1, n⟩ os.Base,
        AdapterOp.MergeBranch ⟨1, n⟩ h] 1]
    rfl

/-- Witness for claim C5 at a concrete state: one mergeable pull request
without branches is selected, and its creation trace is the baseline
branch plus one branch per viable tip. -/
theorem claim_C5_witness :
    (∀ p ∈ (State.mk "m" [] [((3 : Int), "h3")]
        []).MergeablePullRequests, 0 < p.1) ∧
    ((((State.mk "m" [] [((3 : Int), "h3")] []).NextMergeablePullRequest =
          0 ∧
        ∀ p ∈ (State.mk "m" [] [((3 : Int), "h3")]
            []).MergeablePullRequests,
          ownsBranch (State.mk "m" [] [((3 : Int), "h3")] []) p.1 = true) ∨
      (0 < (State.mk "m" [] [((3 : Int), "h3")]
            []).NextMergeablePullRequest ∧
        containsA (State.mk "m" [] [((3 : Int), "h3")]
            []).MergeablePullRequests
          (State.mk "m" [] [((3 : Int), "h3")]
            []).NextMergeablePullRequest = true ∧
        ownsBranch (State.mk "m" [] [((3 : Int), "h3")] [])
          (State.mk "m" [] [((3 : Int), "h3")]
            []).NextMergeablePullRequest = false ∧
        ∀ p ∈ (State.mk "m" [] [((3 : Int), "h3")]
            []).MergeablePullRequests,
          ownsBranch (State.mk "m" [] [((3 : Int), "h3")] []) p.1 = false →
          (State.mk "m" [] [((3 : Int), "h3")]
            []).NextMergeablePullRequest ≤ p.1)) ∧
    (∀ (n : PullRequestNumber) (h : CommitID),
      lookupA (State.mk "m" [] [((3 : Int), "h3")]
          []).MergeablePullRequests n = some h →
      (State.mk "m" [] [((3 : Int), "h3")]
          []).CreateBranchesForPullRequest [] n =
        AdapterOp.CreateBranch ⟨1, n⟩
            (State.mk "m" [] [((3 : Int), "h3")] []).Base ::
          AdapterOp.MergeBranch ⟨1, n⟩ h ::
            tipOps (State.mk "m" [] [((3 : Int), "h3")] []) n h 2
              (([] : PipelineTree).filter
                (fun e => !e.2.IsNotInPipeline)))) :=
  ⟨by decide,
    claim_C5_scheduler (State.mk "m" [] [((3 : Int), "h3")] []) []
      (by decide)⟩

/-- Well-formedness of a state, as guaranteed by the naming scheme: every
branch key carries positive integers (spec section 3) and the branch map
has no duplicate keys (it is a map). -/
def State.WF (s : State) : Prop :=
  NodupKeysA s.Branches ∧
    ∀ p ∈ s.Branches, 0 < p.1.PullRequestNumber ∧ 0 < p.1.PipelineCounter

/-! ### Lemmas on decimal rendering and parsing -/

theorem natDigitsAux_spec (fuel : Nat) :
    ∀ n, n ≤ fuel →
      natDigitsAux fuel n = ((Nat.digits 10 n).reverse).map digitChar := by
  induction fuel with
  | zero =>
    intro n hn
    interval_cases n
    simp [natDigitsAux]
  | succ fuel ih =>
    intro n hn
    rw [natDigitsAux]
    by_cases h0 : n = 0
    · simp [h0]
    · rw [if_neg h0]
      have hdiv : n / 10 ≤ fuel := by
        have : n / 10 < n := Nat.div_lt_self (Nat.pos_of_ne_zero h0) (by omega)
        omega
      rw [ih _ hdiv, Nat.digits_def' (by omega : 1 < 10) (Nat.pos_of_ne_zero h0)]
      simp

theorem natDigits_spec (n : Nat) (h : 0 < n) :
    natDigits n = ((Nat.digits 10 n).reverse).map digitChar := by
  rw [natDigits, if_neg (by omega : ¬ n = 0)]
  exact natDigitsAux_spec n n le_rfl

theorem digitChar_val : ∀ d, d < 10 → (digitChar d).toNat - 48 = d := by decide

theorem digitChar_digit : ∀ d, d < 10 → isDigitC (digitChar d) = true := by
  decide

theorem natDigits_all_digit (n : Nat) : (natDigits n).all isDigitC = true := by
  by_cases h : n = 0
  · subst h; decide
  · rw [natDigits_spec n (Nat.pos_of_ne_zero h), List.all_eq_true]
    intro c hc
    rcases List.mem_map.mp hc with ⟨d, hd, hdc⟩
    subst hdc
    exact digitChar_digit d
      (Nat.digits_lt_base (by omega) (List.mem_reverse.mp hd))

theorem natDigits_ne_nil (n : Nat) : natDigits n ≠ [] := by
  by_cases h : n = 0
  · subst h; decide
  · rw [natDigits_spec n (Nat.pos_of_ne_zero h)]
    simp [Nat.digits_ne_nil_iff_ne_zero.mpr h]

theorem foldr_ofDigits (l : List Nat) :
    l.foldr (fun d acc => acc * 10 + d) 0 = Nat.ofDigits 10 l := by
  induction l with
  | nil => simp [Nat.ofDigits]
  | cons d l ih =>
    rw [List.foldr_cons, ih, Nat.ofDigits_cons]
    ring

theorem digitsVal_natDigits (n : Nat) : digitsVal (natDigits n) = n := by
  by_cases h : n = 0
  · subst h; decide
  · rw [natDigits_spec n (Nat.pos_of_ne_zero h)]
    unfold digitsVal
    rw [List.foldl_map, List.foldl_reverse]
    have hcongr :
        ∀ l : List Nat, (∀ d ∈ l, d < 10) →
          l.foldr (fun c x => x * 10 + ((digitChar c).toNat - 48)) 0 =
            l.foldr (fun d acc => acc * 10 + d) 0 := by
      intro l
      induction l with
      | nil => intro _; rfl
      | cons d l ih =>
        intro hl
        rw [List.foldr_cons, List.foldr_cons,
          ih (fun x hx => hl x (List.mem_cons_of_mem _ hx)),
          digitChar_val d (hl d (List.mem_cons_self _ _))]
    rw [hcongr _ (fun d hd => Nat.digits_lt_base (by omega) hd),
      foldr_ofDigits, Nat.ofDigits_digits]

theorem isDigitC_ne_dash (c : Char) (h : isDigitC c = true) : ¬ c = '-' := by
  intro hc
  subst hc
  simp [isDigitC] at h

theorem natDigits_no_dash (n : Nat) : ∀ c ∈ natDigits n, ¬ c = '-' := by
  intro c hc
  have := natDigits_all_digit n
  rw [List.all_eq_true] at this
  exact isDigitC_ne_dash c (this c hc)

theorem splitDash_no_dash (b : List Char) (hb : ∀ c ∈ b, ¬ c = '-') :
    splitDash b = [b] := by
  induction b with
  | nil => rfl
  | cons c cs ih =>
    rw [splitDash, if_neg (hb c (List.mem_cons_self _ _))]
    rw [ih (fun x hx => hb x (List.mem_cons_of_mem _ hx))]

theorem splitDash_append (a b : List Char) (ha : ∀ c ∈ a, ¬ c = '-') :
    splitDash (a ++ '-' :: b) = a :: splitDash b := by
  induction a with
  | nil => simp [splitDash]
  | cons c cs ih =>
    rw [List.cons_append, splitDash,
      if_neg (ha c (List.mem_cons_self _ _)),
      ih (fun x hx => ha x (List.mem_cons_of_mem _ hx))]

theorem startsWith_append (p rest : List Char) :
    startsWith p (p ++ rest) = true := by
  induction p with
  | nil => rfl
  | cons c cs ih => simp [startsWith, ih]

theorem goAtoi_natDigits (n : Nat) (_h0 : 0 < n) (hr : n < 2 ^ 63) :
    goAtoi (natDigits n) = ((n : Int), true) := by
  have hne := natDigits_ne_nil n
  have hall := natDigits_all_digit n
  rcases hd : natDigits n with _ | ⟨c, cs⟩
  · exact absurd hd hne
  · have hcdig : isDigitC c = true := by
      rw [hd, List.all_eq_true] at hall
      exact hall c (List.mem_cons_self _ _)
    have hcp : ¬ c = '+' := by
      intro hc; subst hc; simp [isDigitC] at hcdig
    have hcm : ¬ c = '-' := by
      intro hc; subst hc; simp [isDigitC] at hcdig
    unfold goAtoi
    rw [hd] at hall
    have hval : digitsVal (c :: cs) = n := by
      rw [← hd]; exact digitsVal_natDigits n
    have hsign : (decide (c = '+') || decide (c = '-')) = false := by
      simp [hcp, hcm]
    simp only [hsign, Bool.false_eq_true, if_false]
    rw [if_neg (by simp : ¬ (c :: cs = [])), if_pos hall]
    simp only [hval]
    have hnegf : (decide (c = '-')) = false := by simp [hcm]
    simp only [hnegf, Bool.false_eq_true, if_false]
    rw [if_pos hr]

/-! ### Claims C8 and C9: branch-name parsing -/

/-- Modelled from the claim wording of C8: the name consists of the exact
reserved marker and hyphen, followed by exactly two non-empty fields of
decimal digits separated by a hyphen, both of strictly positive value
(leading zeros accepted). -/
def specNameShape (cs : List Char) : Bool :=
  startsWith (mcMarker ++ ['-']) cs &&
    (match splitDash (cs.drop (mcMarker.length + 1)) with
     | [a, b] =>
       !a.isEmpty && a.all isDigitC && decide (0 < digitsVal a) &&
         (!b.isEmpty && b.all isDigitC && decide (0 < digitsVal b))
     | _ => false)

/-- The digits of a numeric field once an optional leading plus sign is
removed (strconv accepts the sign). -/
def fieldBody (cs : List Char) : List Char :=
  match cs with
  | [] => []
  | c :: r => if c = '+' then r else c :: r

/-- A field shape actually accepted by the positive-integer path of the
parser: an optional plus sign, then one or more decimal digits of
strictly positive value. -/
def acceptedField (cs : List Char) : Bool :=
  !(fieldBody cs).isEmpty && (fieldBody cs).all isDigitC &&
    decide (0 < digitsVal (fieldBody cs))

/-- The amended name shape: the exact marker and hyphen, then exactly two
fields separated by a hyphen, each an optional plus sign followed by one
or more decimal digits, both strictly positive. -/
def amendedNameShape (cs : List Char) : Bool :=
  startsWith (mcMarker ++ ['-']) cs &&
    (match splitDash (cs.drop (mcMarker.length + 1)) with
     | [a, b] => acceptedField a && acceptedField b
     | _ => false)

theorem goAtoi_pos_inv (cs : List Char) (v : Int)
    (h : goAtoi cs = (v, true)) (hv : 0 < v) :
    acceptedField cs = true ∧ (digitsVal (fieldBody cs) : Int) = v := by
  rcases cs with _ | ⟨c, rest⟩
  · exact absurd (congrArg Prod.snd h) (by simp [goAtoi])
  · rw [goAtoi] at h
    by_cases hplus : c = '+'
    · have hsign : (decide (c = '+') || decide (c = '-')) = true := by
        simp [hplus]
      simp only [hsign, if_true] at h
      by_cases hnil : rest = []
      · rw [if_pos hnil] at h
        exact absurd (congrArg Prod.snd h) (by simp)
      · rw [if_neg hnil] at h
        by_cases hdig : rest.all isDigitC = true
        · rw [if_pos hdig] at h
          have hneg : (decide (c = '-')) = false := by
            subst hplus; simp
          simp only [hneg, Bool.false_eq_true, if_false] at h
          by_cases hlt : digitsVal rest < 2 ^ 63
          · rw [if_pos hlt] at h
            have hvv : (digitsVal rest : Int) = v := congrArg Prod.fst h
            have hpos : 0 < digitsVal rest := by
              have := hv; rw [← hvv] at this; exact_mod_cast this
            have hfb : fieldBody (c :: rest) = rest := by
              rw [fieldBody, if_pos hplus]
            refine ⟨?_, by rw [hfb]; exact hvv⟩
            rw [acceptedField, hfb]
            simp [hnil, hdig, hpos, List.isEmpty_iff]
          · rw [if_neg hlt] at h
            exact absurd (congrArg Prod.snd h) (by simp)
        · rw [if_neg hdig] at h
          exact absurd (congrArg Prod.snd h) (by simp)
    · by_cases hminus : c = '-'
      · have hsign : (decide (c = '+') || decide (c = '-')) = true := by
          simp [hminus]
        simp only [hsign, if_true] at h
        by_cases hnil : rest = []
        · rw [if_pos hnil] at h
          exact absurd (congrArg Prod.snd h) (by simp)
        · rw [if_neg hnil] at h
          by_cases hdig : rest.all isDigitC = true
          · rw [if_pos hdig] at h
            have hneg : (decide (c = '-')) = true := by simp [hminus]
            simp only [hneg, if_true] at h
            by_cases hle : digitsVal rest ≤ 2 ^ 63
            · rw [if_pos hle] at h
              have hvv : -((digitsVal rest : Int)) = v := congrArg Prod.fst h
              exfalso
              have : (0 : Int) < -(digitsVal rest : Int) := hvv ▸ hv
              omega
            · rw [if_neg hle] at h
              exact absurd (congrArg Prod.snd h) (by simp)
          · rw [if_neg hdig] at h
            exact absurd (congrArg Prod.snd h) (by simp)
      · have hsign : (decide (c = '+') || decide (c = '-')) = false := by
          simp [hplus, hminus]
        simp only [hsign, Bool.false_eq_true, if_false] at h
        rw [if_neg (by simp : ¬ (c :: rest = []))] at h
        by_cases hdig : (c :: rest).all isDigitC = true
        · rw [if_pos hdig] at h
          have hneg : (decide (c = '-')) = false := by simp [hminus]
          simp only [hneg, Bool.false_eq_true, if_false] at h
          by_cases hlt : digitsVal (c :: rest) < 2 ^ 63
          · rw [if_pos hlt] at h
            have hvv : (digitsVal (c :: rest) : Int) = v := congrArg Prod.fst h
            have hpos : 0 < digitsVal (c :: rest) := by
              have := hv; rw [← hvv] at this; exact_mod_cast this
            have hfb : fieldBody (c :: rest) = c :: rest := by
              rw [fieldBody, if_neg hplus]
            refine ⟨?_, by rw [hfb]; exact hvv⟩
            rw [acceptedField, hfb]
            simp [hdig, hpos]
          · rw [if_neg hlt] at h
            exact absurd (congrArg Prod.snd h) (by simp)
        · rw [if_neg hdig] at h
          exact absurd (congrArg Prod.snd h) (by simp)

/-- Claim C8 as stated is refuted: a field may carry a leading plus sign,
which strconv accepts, so a name outside the claimed digit-only shape
still parses successfully.  The witness name has first field plus-one,
which is not a decimal-digit field. -/
theorem claim_C8_counterexample :
    (ParseBranchKey (strChars "merge-candidate-+1-2")).2 = true ∧
      specNameShape (strChars "merge-candidate-+1-2") = false := by
  constructor <;> decide

/-- Claim C8 amended: ParseBranchKey returns true only if the string is
the exact marker and hyphen followed by exactly two hyphen-separated
fields, each an optional plus sign followed by one or more decimal
digits (leading zeros accepted), both strictly positive; the returned
key then carries the two positive field values. -/
theorem claim_C8_amended (cs : List Char) (bk : BranchKey)
    (h : ParseBranchKey cs = (bk, true)) :
    amendedNameShape cs = true ∧
      0 < bk.PullRequestNumber ∧ 0 < bk.PipelineCounter := by
  rw [ParseBranchKey] at h
  by_cases hpre : startsWith (mcMarker ++ ['-']) cs = true
  · rw [if_pos hpre] at h
    split at h
    next a b hsplit =>
      by_cases h1 : (!(goAtoi a).2 || decide ((goAtoi a).1 ≤ 0)) = true
      · rw [if_pos h1] at h
        exact absurd (congrArg Prod.snd h) (by simp)
      · rw [if_neg h1] at h
        by_cases h2 : (!(goAtoi b).2 || decide ((goAtoi b).1 ≤ 0)) = true
        · rw [if_pos h2] at h
          exact absurd (congrArg Prod.snd h) (by simp)
        · rw [if_neg h2] at h
          have hbk : bk = ⟨(goAtoi b).1, (goAtoi a).1⟩ :=
            (congrArg Prod.fst h).symm
          simp only [Bool.or_eq_true, Bool.not_eq_true', decide_eq_true_eq,
            not_or, not_le] at h1 h2
          have ha2 : (goAtoi a).2 = true := by
            rcases Bool.eq_false_or_eq_true (goAtoi a).2 with hx | hx
            · exact hx
            · exact absurd hx h1.1
          have hb2 : (goAtoi b).2 = true := by
            rcases Bool.eq_false_or_eq_true (goAtoi b).2 with hx | hx
            · exact hx
            · exact absurd hx h2.1
          have ha := goAtoi_pos_inv a (goAtoi a).1 (by rw [← ha2]) h1.2
          have hb := goAtoi_pos_inv b (goAtoi b).1 (by rw [← hb2]) h2.2
          refine ⟨?_, by rw [hbk]; exact ⟨h1.2, h2.2⟩⟩
          rw [amendedNameShape, hpre, hsplit]
          simp [ha.1, hb.1]
    next =>
      exact absurd (congrArg Prod.snd h) (by simp)
  · rw [if_neg hpre] at h
    exact absurd (congrArg Prod.snd h) (by simp)

/-- Witness for the amended C8 at a concrete parsed name. -/
theorem claim_C8_amended_witness :
    ParseBranchKey (strChars "merge-candidate-12-3") = (⟨3, 12⟩, true) ∧
      amendedNameShape (strChars "merge-candidate-12-3") = true ∧
        0 < (12 : Int) ∧ 0 < (3 : Int) :=
  ⟨by decide,
    (claim_C8_amended (strChars "merge-candidate-12-3") ⟨3, 12⟩
      (by decide)).1,
    (claim_C8_amended (strChars "merge-candidate-12-3") ⟨3, 12⟩
      (by decide)).2⟩

/-- Claim C9: encoding a key with strictly positive components (within
the 64-bit Go int range) and parsing it back yields exactly the key and
true. -/
theorem claim_C9_roundtrip (p c : Int) (hp : 0 < p) (hc : 0 < c)
    (hpr : p < 2 ^ 63) (hcr : c < 2 ^ 63) :
    ParseBranchKey (BranchKey.BranchName ⟨c, p⟩) =
      (⟨c, p⟩, true) := by
  have hip : intChars p = natDigits p.toNat := by
    rw [intChars, if_neg (by omega : ¬ p < 0)]
  have hic : intChars c = natDigits c.toNat := by
    rw [intChars, if_neg (by omega : ¬ c < 0)]
  have hap : goAtoi (natDigits p.toNat) = ((p.toNat : Int), true) :=
    goAtoi_natDigits p.toNat (by omega) (by
      have : (p.toNat : Int) < 2 ^ 63 := by rw [Int.toNat_of_nonneg (by omega)]; exact hpr
      exact_mod_cast this)
  have hac : goAtoi (natDigits c.toNat) = ((c.toNat : Int), true) :=
    goAtoi_natDigits c.toNat (by omega) (by
      have : (c.toNat : Int) < 2 ^ 63 := by rw [Int.toNat_of_nonneg (by omega)]; exact hcr
      exact_mod_cast this)
  have hpn : (p.toNat : Int) = p := Int.toNat_of_nonneg (by omega)
  have hcn : (c.toNat : Int) = c := Int.toNat_of_nonneg (by omega)
  have hname :
      BranchKey.BranchName ⟨c, p⟩ =
        (mcMarker ++ ['-']) ++
          (natDigits p.toNat ++ '-' :: natDigits c.toNat) := by
    rw [BranchKey.BranchName]
    simp only [hip, hic]
    simp
  rw [hname, ParseBranchKey]
  rw [if_pos (startsWith_append _ _)]
  have hlen : mcMarker.length + 1 = (mcMarker ++ ['-']).length := by simp
  rw [hlen, List.drop_left,
    splitDash_append _ _ (natDigits_no_dash _),
    splitDash_no_dash _ (natDigits_no_dash _)]
  simp only [hap, hac]
  have h1 : (!((p.toNat : Int), true).2 ||
      decide (((p.toNat : Int), true).1 ≤ 0)) = false := by
    simp only [Bool.not_true, Bool.false_or, decide_eq_false_iff_not, not_le]
    rw [hpn]; exact hp
  have h2 : (!((c.toNat : Int), true).2 ||
      decide (((c.toNat : Int), true).1 ≤ 0)) = false := by
    simp only [Bool.not_true, Bool.false_or, decide_eq_false_iff_not, not_le]
    rw [hcn]; exact hc
  rw [if_neg (by rw [h1]; simp), if_neg (by rw [h2]; simp)]
  rw [hpn, hcn]

/-- Witness for claim C9 at a concrete positive key. -/
theorem claim_C9_witness :
    ParseBranchKey (BranchKey.BranchName ⟨3, 12⟩) = (⟨3, 12⟩, true) :=
  claim_C9_roundtrip 12 3 (by norm_num) (by norm_num) (by norm_num)
    (by norm_num)

/-! ### Claim C10 -/

/-- Claim C10: for every State, PipelineTree and pull-request number that
is not a key of the mergeable map, CreateBranchesForPullRequest performs
no adapter operation at all. -/
theorem claim_C10_create_noop (s : State) (t : PipelineTree)
    (n : PullRequestNumber)
    (h : lookupA s.MergeablePullRequests n = none) :
    s.CreateBranchesForPullRequest t n = [] := by
  unfold State.CreateBranchesForPullRequest
  rw [h]

/-- Witness for claim C10 at a concrete state whose mergeable map does not
mention pull request 5. -/
theorem claim_C10_witness :
    lookupA (State.mk "main" [] [(3, "h3")] []).MergeablePullRequests 5 =
        none ∧
      (State.mk "main" [] [(3, "h3")] []).CreateBranchesForPullRequest
          [] 5 = [] :=
  ⟨by decide, claim_C10_create_noop _ _ _ (by decide)⟩

/-! ### Pipeline-tree invariants (claims C1, C2, C3, C6) -/

/-- A branch whose observed state poisons the pipeline: invalid, or with
a completed and failed check suite. -/
def badB (s : State) (k : BranchKey) : Bool :=
  match lookupA s.Branches k with
  | some bv => !bv.isValid || (bv.IsCheckDone && !bv.IsCheckPass)
  | none => false

/-- The predecessor chain of a tree entry down to (and excluding) the
base sentinel, with fuel standing in for termination. -/
def predChain (t : PipelineTree) : Nat → BranchKey → Option (List BranchKey)
  | 0, _ => none
  | fuel + 1, bk =>
    if bk = zeroBK then some []
    else
      match lookupA t bk with
      | none => none
      | some pv => (predChain t fuel pv.Predecessor).map (fun ch => bk :: ch)

theorem predChain_fuel_mono (t : PipelineTree) :
    ∀ (f f' : Nat) (bk : BranchKey) (ch : List BranchKey),
      predChain t f bk = some ch → f ≤ f' → predChain t f' bk = some ch := by
  intro f
  induction f with
  | zero => intro f' bk ch h; simp [predChain] at h
  | succ f ih =>
    intro f' bk ch h hle
    rcases Nat.exists_eq_add_of_le hle with ⟨d, hd⟩
    subst hd
    have h2 : f + 1 + d = (f + d) + 1 := by omega
    rw [h2]
    rw [predChain] at h ⊢
    by_cases hz : bk = zeroBK
    · rwa [if_pos hz] at h ⊢
    · rw [if_neg hz] at h ⊢
      cases hl : lookupA t bk with
      | none => rw [hl] at h; simp at h
      | some pv =>
        simp only [hl] at h ⊢
        cases hc : predChain t f pv.Predecessor with
        | none => rw [hc] at h; simp at h
        | some ch0 =>
          rw [hc] at h
          rw [ih (f + d) pv.Predecessor ch0 hc (by omega)]
          exact h

/-- The invariant maintained by the pipeline-tree construction, relative
to the originating state. -/
structure BuildInv (s : State) (t : PipelineTree)
    (shas : List (CommitID × BranchKey)) : Prop where
  ndt : NodupKeysA t
  zeroNotT : containsA t zeroBK = false
  shasOwner : ∀ c bk, lookupA shas c = some bk →
    bk = zeroBK ∨ containsA t bk = true
  tSub : ∀ bk, containsA t bk = true → containsA s.Branches bk = true
  loc : ∀ bk pv, lookupA t bk = some pv →
    ∃ bv, lookupA s.Branches bk = some bv ∧
      pv.IsNotInPipeline =
        (((lookupA t pv.Predecessor).getD zeroPV).IsNotInPipeline ||
          !bv.isValid || (bv.IsCheckDone && !bv.IsCheckPass)) ∧
      pv.Weight = ((lookupA t pv.Predecessor).getD zeroPV).Weight + 1 ∧
      (pv.Predecessor = zeroBK ∨ containsA t pv.Predecessor = true)
  wbound : ∀ bk pv, lookupA t bk = some pv →
    1 ≤ pv.Weight ∧ pv.Weight ≤ (t.length : Int)
  headIn : ∀ p ∈ s.Branches, containsA t p.1 = true →
    containsA shas p.2.CommitID = true
  baseIn : containsA shas s.Base = true

theorem wf_zero_not_branch (s : State) (hwf : s.WF) :
    containsA s.Branches zeroBK = false := by
  cases hc : containsA s.Branches zeroBK with
  | false => rfl
  | true =>
    exfalso
    rcases List.mem_map.mp (mem_keys_of_containsA _ _ hc) with ⟨p, hp, hpk⟩
    have := (hwf.2 p hp).1
    rw [hpk] at this
    simp [zeroBK] at this

theorem buildInv_init (s : State) :
    BuildInv s [] [(s.Base, zeroBK)] := by
  refine ⟨?_, ?_, ?_, ?_, ?_, ?_, ?_, ?_⟩
  · simp [NodupKeysA]
  · rfl
  · intro c bk h
    rw [lookupA_cons] at h
    by_cases hc : s.Base = c
    · rw [if_pos hc] at h
      left
      exact ((Option.some.injEq _ _).mp h).symm
    · rw [if_neg hc] at h
      simp [lookupA_nil] at h
  · intro bk h; simp [containsA, lookupA_nil] at h
  · intro bk pv h; simp [lookupA_nil] at h
  · intro bk pv h; simp [lookupA_nil] at h
  · intro p hp h; simp [containsA, lookupA_nil] at h
  · simp [containsA, lookupA_cons]

theorem length_insertA {α β : Type} [DecidableEq α]
    (l : List (α × β)) (k : α) (v : β) :
    (insertA l k v).length =
      if containsA l k = true then l.length else l.length + 1 := by
  induction l with
  | nil => simp [insertA, containsA, lookupA_nil]
  | cons p l ih =>
    rw [insertA]
    by_cases hp : p.1 = k
    · simp [hp, containsA, lookupA_cons]
    · have hcc : containsA (p :: l) k = containsA l k := by
        simp [containsA, lookupA_cons, hp]
      rw [if_neg hp, hcc, List.length_cons, ih]
      by_cases hc : containsA l k = true
      · simp [hc]
      · simp [hc]

theorem buildStep_inv (s : State) (hwf : s.WF) (t : PipelineTree)
    (shas : List (CommitID × BranchKey)) (k : Nat)
    (bk : BranchKey) (bv : BranchValue) (hmem : (bk, bv) ∈ s.Branches)
    (inv : BuildInv s t shas) :
    BuildInv s (buildStep (t, shas, k) bk bv).1
      (buildStep (t, shas, k) bk bv).2.1 := by
  rw [buildStep]
  by_cases hin : containsA t bk = true
  · rw [if_pos hin]
    exact inv
  · rw [if_neg hin]
    cases hfind : bv.Parents.find? (fun p => containsA shas p) with
    | none => exact inv
    | some p =>
      simp only []
      have hinf : containsA t bk = false := by
        cases hx : containsA t bk with
        | false => rfl
        | true => exact absurd hx hin
      have hkb : lookupA s.Branches bk = some bv :=
        lookupA_eq_some_of_mem s.Branches (bk, bv) hwf.1 hmem
      have hbkz : ¬ bk = zeroBK := by
        intro hz
        have := (hwf.2 (bk, bv) hmem).1
        rw [hz] at this
        simp [zeroBK] at this
      have hpin : containsA shas p = true := by
        have := List.find?_some hfind
        simpa using this
      have hplk : lookupA shas p = some ((lookupA shas p).getD zeroBK) := by
        unfold containsA at hpin
        cases hx : lookupA shas p with
        | none => rw [hx] at hpin; simp at hpin
        | some q => rfl
      have hparent :
          (lookupA shas p).getD zeroBK = zeroBK ∨
            containsA t ((lookupA shas p).getD zeroBK) = true :=
        inv.shasOwner p _ hplk
      have hpknbk : ¬ ((lookupA shas p).getD zeroBK) = bk := by
        intro he
        rcases hparent with h1 | h1
        · rw [he] at h1; exact hbkz h1
        · rw [he] at h1; rw [h1] at hinf; simp at hinf
      -- abbreviations for the inserted entry
      refine ⟨?_, ?_, ?_, ?_, ?_, ?_, ?_, ?_⟩
      · exact nodupKeysA_insertA _ _ _ inv.ndt
      · rw [containsA_insertA]
        have : ¬ (bk = zeroBK) := hbkz
        simp [this, inv.zeroNotT]
      · intro c q hq
        rw [lookupA_insertA] at hq
        by_cases hcc : bv.CommitID = c
        · rw [if_pos hcc] at hq
          right
          have hqbk : q = bk := ((Option.some.injEq _ _).mp hq).symm
          rw [hqbk, containsA_insertA]
          simp
        · rw [if_neg hcc] at hq
          rcases inv.shasOwner c q hq with h1 | h1
          · exact Or.inl h1
          · right
            rw [containsA_insertA, h1]
            simp
      · intro x hx
        rw [containsA_insertA] at hx
        by_cases hbx : bk = x
        · rw [← hbx]
          rw [← hbx] at hx
          apply containsA_of_mem_keys
          exact List.mem_map.mpr ⟨(bk, bv), hmem, rfl⟩
        · have : containsA t x = true := by
            simpa [hbx] using hx
          exact inv.tSub x this
      · intro x px hx
        rw [lookupA_insertA] at hx
        by_cases hbx : bk = x
        · rw [if_pos hbx] at hx
          have hpx : px =
              ⟨(lookupA shas p).getD zeroBK,
                ((lookupA t ((lookupA shas p).getD zeroBK)).getD
                  zeroPV).Weight + 1,
                ((lookupA t ((lookupA shas p).getD zeroBK)).getD
                  zeroPV).IsNotInPipeline ||
                  !bv.isValid || (bv.IsCheckDone && !bv.IsCheckPass)⟩ :=
            ((Option.some.injEq _ _).mp hx).symm
          refine ⟨bv, by rw [← hbx]; exact hkb, ?_, ?_, ?_⟩
          · rw [hpx]
            simp only []
            rw [lookupA_insertA, if_neg (by exact fun he => hpknbk he.symm)]
          · rw [hpx]
            simp only []
            rw [lookupA_insertA, if_neg (by exact fun he => hpknbk he.symm)]
          · rw [hpx]
            simp only []
            rcases hparent with h1 | h1
            · exact Or.inl h1
            · right
              rw [containsA_insertA, h1]
              simp
        · rw [if_neg hbx] at hx
          rcases inv.loc x px hx with ⟨bvx, hbvx, htomb, hwt, hpred⟩
          have hprednbk : ¬ (bk = px.Predecessor) := by
            intro he
            rcases hpred with h1 | h1
            · rw [← he] at h1; exact hbkz h1
            · rw [← he] at h1; rw [h1] at hinf
              simp at hinf
          refine ⟨bvx, hbvx, ?_, ?_, ?_⟩
          · rw [lookupA_insertA, if_neg hprednbk]
            exact htomb
          · rw [lookupA_insertA, if_neg hprednbk]
            exact hwt
          · rcases hpred with h1 | h1
            · exact Or.inl h1
            · right
              rw [containsA_insertA, h1]
              simp
      · intro x px hx
        rw [lookupA_insertA] at hx
        have hlen : ((insertA t bk
            ⟨(lookupA shas p).getD zeroBK,
              ((lookupA t ((lookupA shas p).getD zeroBK)).getD
                zeroPV).Weight + 1,
              ((lookupA t ((lookupA shas p).getD zeroBK)).getD
                zeroPV).IsNotInPipeline ||
                !bv.isValid || (bv.IsCheckDone && !bv.IsCheckPass)⟩).length
              : Int) = (t.length : Int) + 1 := by
          rw [length_insertA, if_neg (by simp [hinf])]
          push_cast
          ring
        by_cases hbx : bk = x
        · rw [if_pos hbx] at hx
          have hpx := ((Option.some.injEq _ _).mp hx).symm
          rw [hpx]
          simp only []
          rw [hlen]
          rcases hparent with h1 | h1
          · have hznone : lookupA t zeroBK = none :=
              (lookupA_eq_none_iff t zeroBK).mpr inv.zeroNotT
            rw [h1, hznone]
            simp only [zeroPV, Option.getD_none]
            have : (0 : Int) ≤ (t.length : Int) := by positivity
            constructor
            · omega
            · omega
          · have hsome : lookupA t ((lookupA shas p).getD zeroBK) =
                some ((lookupA t ((lookupA shas p).getD zeroBK)).getD
                  zeroPV) := by
              unfold containsA at h1
              cases hx2 : lookupA t ((lookupA shas p).getD zeroBK) with
              | none => rw [hx2] at h1; simp at h1
              | some q => rfl
            rcases inv.wbound _ _ hsome with ⟨hw1, hw2⟩
            constructor
            · omega
            · omega
        · rw [if_neg hbx] at hx
          rcases inv.wbound x px hx with ⟨hw1, hw2⟩
          refine ⟨hw1, ?_⟩
          rw [hlen]
          omega
      · intro q hq hqt
        rw [containsA_insertA] at hqt
        rw [containsA_insertA]
        by_cases hbq : bk = q.1
        · have : q = (bk, bv) := by
            have h1 : lookupA s.Branches q.1 = some q.2 :=
              lookupA_eq_some_of_mem s.Branches q hwf.1 hq
            rw [← hbq, hkb] at h1
            have h2 : bv = q.2 := (Option.some.injEq _ _).mp h1
            rcases q with ⟨q1, q2⟩
            simp only at hbq h2
            rw [← hbq, ← h2]
          rw [this]
          simp
        · have : containsA t q.1 = true := by
            simpa [hbq] using hqt
          rw [inv.headIn q hq this]
          simp
      · rw [containsA_insertA, inv.baseIn]
        simp

theorem buildPass_inv (s : State) (hwf : s.WF) :
    ∀ (l : List (BranchKey × BranchValue)), (∀ p ∈ l, p ∈ s.Branches) →
      ∀ acc : PipelineTree × List (CommitID × BranchKey) × Nat,
        BuildInv s acc.1 acc.2.1 →
        BuildInv s ((l.foldl (fun a p => buildStep a p.1 p.2) acc).1)
          ((l.foldl (fun a p => buildStep a p.1 p.2) acc).2.1) := by
  intro l
  induction l with
  | nil => intro _ acc h; exact h
  | cons p l ih =>
    intro hl acc h
    rw [List.foldl_cons]
    exact ih (fun q hq => hl q (List.mem_cons_of_mem _ hq))
      (buildStep acc p.1 p.2)
      (buildStep_inv s hwf acc.1 acc.2.1 acc.2.2 p.1 p.2
        (hl p (List.mem_cons_self _ _)) h)

theorem buildLoop_inv (s : State) (hwf : s.WF)
    (l : List (BranchKey × BranchValue)) (hl : ∀ p ∈ l, p ∈ s.Branches) :
    ∀ (fuel : Nat) (acc : PipelineTree × List (CommitID × BranchKey)),
      BuildInv s acc.1 acc.2 →
      BuildInv s (buildLoop l fuel acc).1 (buildLoop l fuel acc).2 := by
  intro fuel
  induction fuel with
  | zero => intro acc h; exact h
  | succ fuel ih =>
    intro acc h
    rw [buildLoop]
    have hp : BuildInv s (buildPass l acc).1 (buildPass l acc).2.1 :=
      buildPass_inv s hwf l hl (acc.1, acc.2, 0) h
    by_cases hz : (buildPass l acc).2.2 = 0
    · rw [if_pos hz]
      exact hp
    · rw [if_neg hz]
      exact ih ((buildPass l acc).1, (buildPass l acc).2.1) hp

/-- The full result of the pipeline-tree fixed point, tree and commit
ownership map together. -/
def buildResult (os : State) :
    PipelineTree × List (CommitID × BranchKey) :=
  buildLoop os.Branches (os.Branches.length + 1) ([], [(os.Base, zeroBK)])

theorem buildTree_eq_result (os : State) :
    os.BuildPipelineTree = (buildResult os).1 := rfl

theorem buildTree_inv (s : State) (hwf : s.WF) :
    BuildInv s (buildResult s).1 (buildResult s).2 :=
  buildLoop_inv s hwf s.Branches (fun _ hq => hq) _ _ (buildInv_init s)

/-- From the construction invariant, every tree entry has a predecessor
chain of length its weight reaching the base sentinel, consisting of
branches of the state, whose tombstone is the disjunction of the bad
flags along the chain. -/
theorem chain_exists (s : State) (t : PipelineTree)
    (shas : List (CommitID × BranchKey)) (inv : BuildInv s t shas) :
    ∀ (n : Nat) (bk : BranchKey) (pv : PipelineValue),
      lookupA t bk = some pv → pv.Weight.toNat = n →
      ∃ ch, predChain t (n + 1) bk = some ch ∧ ch.length = n ∧
        (∀ k ∈ ch, containsA s.Branches k = true) ∧
        pv.IsNotInPipeline = ch.any (fun k => badB s k) := by
  intro n
  induction n using Nat.strong_induction_on with
  | _ n ihn =>
    intro bk pv hbk hn
    have hbkz : ¬ bk = zeroBK := by
      intro hz
      have : containsA t zeroBK = true := by
        unfold containsA
        rw [← hz, hbk]
        rfl
      rw [inv.zeroNotT] at this
      simp at this
    rcases inv.loc bk pv hbk with ⟨bv, hbv, htomb, hwt, hpred⟩
    have hbad : badB s bk = (!bv.isValid || (bv.IsCheckDone && !bv.IsCheckPass)) := by
      rw [badB, hbv]
    rcases hpred with hz | hmem
    · -- predecessor is the base sentinel
      have hznone : lookupA t zeroBK = none :=
        (lookupA_eq_none_iff t zeroBK).mpr inv.zeroNotT
      rw [hz, hznone] at htomb hwt
      simp only [Option.getD_none] at htomb hwt
      have hn1 : n = 1 := by
        rw [hwt] at hn
        simp [zeroPV] at hn
        omega
      subst hn1
      refine ⟨[bk], ?_, rfl, ?_, ?_⟩
      · rw [predChain, if_neg hbkz, hbk]
        simp only [hz]
        rw [predChain, if_pos rfl]
        rfl
      · intro x hx
        rcases List.mem_singleton.mp hx with rfl
        apply inv.tSub
        unfold containsA
        rw [hbk]
        rfl
      · rw [htomb]
        simp [zeroPV, hbad]
    · -- predecessor is a real tree entry
      have hqsome : lookupA t pv.Predecessor =
          some ((lookupA t pv.Predecessor).getD zeroPV) := by
        unfold containsA at hmem
        cases hx : lookupA t pv.Predecessor with
        | none => rw [hx] at hmem; simp at hmem
        | some q => rfl
      rcases inv.wbound _ _ hqsome with ⟨hq1, _⟩
      have hpvw : 1 ≤ pv.Weight := (inv.wbound bk pv hbk).1
      have hqn : ((lookupA t pv.Predecessor).getD zeroPV).Weight.toNat
          = n - 1 := by
        rw [hwt] at hn
        omega
      have hlt : n - 1 < n := by
        rw [hwt] at hn
        omega
      rcases ihn (n - 1) hlt pv.Predecessor _ hqsome hqn with
        ⟨ch0, hch0, hlen0, hmem0, htomb0⟩
      have hn1 : n = (n - 1) + 1 := by
        rw [hwt] at hn
        omega
      refine ⟨bk :: ch0, ?_, ?_, ?_, ?_⟩
      · rw [hn1, predChain, if_neg hbkz, hbk]
        simp only [hch0]
        rfl
      · rw [List.length_cons, hlen0]
        omega
      · intro x hx
        rcases List.mem_cons.mp hx with rfl | hx2
        · apply inv.tSub
          unfold containsA
          rw [hbk]
          rfl
        · exact hmem0 x hx2
      · rw [htomb, htomb0, List.any_cons, hbad]
        simp [Bool.or_comm, Bool.or_left_comm, Bool.or_assoc]

/-- Claim C2: every entry of the built pipeline tree has a finite
predecessor chain terminating at the base sentinel, of length equal to
its weight, consisting of branches of the state, and its tombstone is
set exactly when some branch on the chain is invalid or has a completed
failing check. -/
theorem claim_C2_tree_invariant (s : State) (hwf : s.WF) (bk : BranchKey)
    (pv : PipelineValue)
    (h : lookupA s.BuildPipelineTree bk = some pv) :
    ∃ ch,
      predChain s.BuildPipelineTree (s.BuildPipelineTree.length + 1) bk =
        some ch ∧
      pv.Weight = (ch.length : Int) ∧
      (∀ k ∈ ch, containsA s.Branches k = true) ∧
      pv.IsNotInPipeline = ch.any (fun k => badB s k) := by
  have inv := buildTree_inv s hwf
  rw [buildTree_eq_result] at h ⊢
  rcases chain_exists s (buildResult s).1 (buildResult s).2 inv
      pv.Weight.toNat bk pv h rfl with ⟨ch, hch, hlen, hmem, htomb⟩
  rcases inv.wbound bk pv h with ⟨hw1, hw2⟩
  refine ⟨ch, ?_, ?_, hmem, htomb⟩
  · apply predChain_fuel_mono _ _ _ _ _ hch
    omega
  · rw [hlen]
    omega

/-- Witness for claim C2 at a concrete one-branch state. -/
theorem claim_C2_witness :
    ∃ ch,
      predChain
        (State.mk "main"
          [(⟨1, 1⟩, ⟨["main"], true, true, true, "c1"⟩)] []
          []).BuildPipelineTree
        ((State.mk "main"
          [(⟨1, 1⟩, ⟨["main"], true, true, true, "c1"⟩)] []
          []).BuildPipelineTree.length + 1) ⟨1, 1⟩ =
        some ch ∧
      (⟨zeroBK, 1, false⟩ : PipelineValue).Weight = (ch.length : Int) ∧
      (∀ k ∈ ch,
        containsA
          (State.mk "main"
            [(⟨1, 1⟩, ⟨["main"], true, true, true, "c1"⟩)] []
            []).Branches k = true) ∧
      (⟨zeroBK, 1, false⟩ : PipelineValue).IsNotInPipeline =
        ch.any (fun k =>
          badB
            (State.mk "main"
              [(⟨1, 1⟩, ⟨["main"], true, true, true, "c1"⟩)] []
              []) k) :=
  claim_C2_tree_invariant
    (State.mk "main" [(⟨1, 1⟩, ⟨["main"], true, true, true, "c1"⟩)] [] [])
    (by constructor
        · unfold NodupKeysA
          decide
        · decide)
    ⟨1, 1⟩ ⟨zeroBK, 1, false⟩ (by decide)

theorem selW_lookup (t : PipelineTree) (bk : BranchKey)
    (pv : PipelineValue) (h : lookupA t bk = some pv) :
    selW t bk = pv.Weight := by
  rw [selW, h]
  rfl

theorem selW_zero (t : PipelineTree) (hz : containsA t zeroBK = false) :
    selW t zeroBK = 0 := by
  rw [selW, (lookupA_eq_none_iff t zeroBK).mpr hz]
  rfl

theorem sel_fold (t : PipelineTree) (_hz : containsA t zeroBK = false)
    (hnd : NodupKeysA t) :
    ∀ (l : List (BranchKey × PipelineValue)) (cur : BranchKey),
      (∀ e ∈ l, e ∈ t) →
      (cur = zeroBK ∨
        ∃ pv, lookupA t cur = some pv ∧ pv.IsNotInPipeline = false) →
      (l.foldl (selStep t) cur = cur ∨
        ∃ e ∈ l, e.2.IsNotInPipeline = false ∧
          l.foldl (selStep t) cur = e.1) ∧
      (∀ e ∈ l, e.2.IsNotInPipeline = false →
        (e.2.Weight < selW t (l.foldl (selStep t) cur) ∨
          (e.2.Weight = selW t (l.foldl (selStep t) cur) ∧
            (l.foldl (selStep t) cur).PullRequestNumber ≤
              e.1.PullRequestNumber))) ∧
      (selW t cur < selW t (l.foldl (selStep t) cur) ∨
        (selW t cur = selW t (l.foldl (selStep t) cur) ∧
          (l.foldl (selStep t) cur).PullRequestNumber ≤
            cur.PullRequestNumber) ∨
        l.foldl (selStep t) cur = cur) := by
  intro l
  induction l with
  | nil =>
    intro cur _ _
    refine ⟨Or.inl rfl, ?_, Or.inr (Or.inr rfl)⟩
    intro e he
    simp at he
  | cons e l ih =>
    intro cur hsub hcur
    have hesub : e ∈ t := hsub e (List.mem_cons_self _ _)
    have hlsub : ∀ q ∈ l, q ∈ t :=
      fun q hq => hsub q (List.mem_cons_of_mem _ hq)
    rw [List.foldl_cons]
    cases hev : e.2.IsNotInPipeline with
    | true =>
      -- tombstoned entry: the step keeps the candidate
      have hstep : selStep t cur e = cur := by
        rw [selStep, if_pos hev]
      rw [hstep]
      rcases ih cur hlsub hcur with ⟨ho, hd, hc⟩
      refine ⟨?_, ?_, hc⟩
      · rcases ho with h1 | ⟨q, hq, hqv, hqe⟩
        · exact Or.inl h1
        · exact Or.inr ⟨q, List.mem_cons_of_mem _ hq, hqv, hqe⟩
      · intro q hq hqv
        rcases List.mem_cons.mp hq with h1 | h1
        · subst h1; rw [hqv] at hev; simp at hev
        · exact hd q h1 hqv
    | false =>
      -- viable entry
      have helook : lookupA t e.1 = some e.2 :=
        lookupA_eq_some_of_mem t e hnd hesub
      have hseW : selW t e.1 = e.2.Weight := selW_lookup t e.1 e.2 helook
      by_cases hb1 : selW t cur < e.2.Weight
      · -- the entry beats the candidate on weight
        have hstep : selStep t cur e = e.1 := by
          rw [selStep, hev]
          simp only [Bool.false_eq_true, if_false]
          rw [if_pos hb1]
        rw [hstep]
        rcases ih e.1 hlsub (Or.inr ⟨e.2, helook, hev⟩) with ⟨ho, hd, hc⟩
        refine ⟨?_, ?_, ?_⟩
        · rcases ho with h1 | ⟨q, hq, hqv, hqe⟩
          · exact Or.inr ⟨e, List.mem_cons_self _ _, hev, h1⟩
          · exact Or.inr ⟨q, List.mem_cons_of_mem _ hq, hqv, hqe⟩
        · intro q hq hqv
          rcases List.mem_cons.mp hq with h1 | h1
          · subst h1
            rcases hc with h2 | ⟨h2, h3⟩ | h2
            · rw [hseW] at h2
              exact Or.inl h2
            · rw [hseW] at h2
              exact Or.inr ⟨h2, h3⟩
            · rw [h2, hseW]
              exact Or.inr ⟨rfl, le_refl _⟩
          · exact hd q h1 hqv
        · rcases hc with h2 | ⟨h2, h3⟩ | h2
          · left
            calc selW t cur < e.2.Weight := hb1
              _ = selW t e.1 := hseW.symm
              _ < selW t (l.foldl (selStep t) e.1) := h2
          · left
            rw [← h2, hseW]
            exact hb1
          · left
            rw [h2, hseW]
            exact hb1
      · by_cases hb2 : selW t cur = e.2.Weight ∧
            e.1.PullRequestNumber < cur.PullRequestNumber
        · -- equal weight, smaller pull-request number wins
          have hstep : selStep t cur e = e.1 := by
            rw [selStep, hev]
            simp only [Bool.false_eq_true, if_false]
            rw [if_neg hb1, if_pos]
            simp only [Bool.and_eq_true, decide_eq_true_eq]
            exact ⟨hb2.1, hb2.2⟩
          rw [hstep]
          rcases ih e.1 hlsub (Or.inr ⟨e.2, helook, hev⟩) with ⟨ho, hd, hc⟩
          refine ⟨?_, ?_, ?_⟩
          · rcases ho with h1 | ⟨q, hq, hqv, hqe⟩
            · exact Or.inr ⟨e, List.mem_cons_self _ _, hev, h1⟩
            · exact Or.inr ⟨q, List.mem_cons_of_mem _ hq, hqv, hqe⟩
          · intro q hq hqv
            rcases List.mem_cons.mp hq with h1 | h1
            · subst h1
              rcases hc with h2 | ⟨h2, h3⟩ | h2
              · rw [hseW] at h2
                exact Or.inl h2
              · rw [hseW] at h2
                exact Or.inr ⟨h2, h3⟩
              · rw [h2, hseW]
                exact Or.inr ⟨rfl, le_refl _⟩
            · exact hd q h1 hqv
          · rcases hc with h2 | ⟨h2, h3⟩ | h2
            · left
              rw [hb2.1, ← hseW]
              exact h2
            · right
              left
              rw [hseW] at h2
              exact ⟨hb2.1.trans h2, h3.trans (le_of_lt hb2.2)⟩
            · right
              left
              rw [h2, hseW]
              exact ⟨hb2.1, le_of_lt hb2.2⟩
        · -- the candidate is kept
          have hstep : selStep t cur e = cur := by
            rw [selStep, hev]
            simp only [Bool.false_eq_true, if_false]
            rw [if_neg hb1, if_neg]
            simp only [Bool.and_eq_true, decide_eq_true_eq]
            intro hx
            exact hb2 ⟨hx.1, hx.2⟩
          rw [hstep]
          have hkept : e.2.Weight < selW t cur ∨
              (e.2.Weight = selW t cur ∧
                cur.PullRequestNumber ≤ e.1.PullRequestNumber) := by
            rcases lt_or_eq_of_le (le_of_not_lt hb1) with h1 | h1
            · exact Or.inl h1
            · refine Or.inr ⟨h1, ?_⟩
              by_cases h2 : cur.PullRequestNumber ≤ e.1.PullRequestNumber
              · exact h2
              · exact absurd ⟨h1.symm, lt_of_not_le h2⟩ hb2
          rcases ih cur hlsub hcur with ⟨ho, hd, hc⟩
          refine ⟨?_, ?_, hc⟩
          · rcases ho with h1 | ⟨q, hq, hqv, hqe⟩
            · exact Or.inl h1
            · exact Or.inr ⟨q, List.mem_cons_of_mem _ hq, hqv, hqe⟩
          · intro q hq hqv
            rcases List.mem_cons.mp hq with h1 | h1
            · subst h1
              rcases hkept with hk | ⟨hk1, hk2⟩
              · rcases hc with h2 | ⟨h2, h3⟩ | h2
                · exact Or.inl (hk.trans h2)
                · exact Or.inl (h2 ▸ hk)
                · exact Or.inl (by rw [h2]; exact hk)
              · rcases hc with h2 | ⟨h2, h3⟩ | h2
                · exact Or.inl (hk1 ▸ h2)
                · exact Or.inr ⟨hk1.trans h2, h3.trans hk2⟩
                · refine Or.inr ⟨by rw [h2]; exact hk1, ?_⟩
                  rw [h2]
                  exact hk2
            · exact hd q h1 hqv

theorem selectHead_spec (t : PipelineTree)
    (hz : containsA t zeroBK = false) (hnd : NodupKeysA t)
    (hw : ∀ e ∈ t, 1 ≤ e.2.Weight) :
    (selectHead t = zeroBK ∧ ∀ e ∈ t, e.2.IsNotInPipeline = true) ∨
    (∃ pv, lookupA t (selectHead t) = some pv ∧
      pv.IsNotInPipeline = false ∧
      ∀ e ∈ t, e.2.IsNotInPipeline = false →
        (e.2.Weight < pv.Weight ∨
          (e.2.Weight = pv.Weight ∧
            (selectHead t).PullRequestNumber ≤ e.1.PullRequestNumber))) := by
  have hsel : selectHead t = t.foldl (selStep t) zeroBK := rfl
  rw [hsel]
  rcases sel_fold t hz hnd t zeroBK (fun _ hq => hq) (Or.inl rfl) with
    ⟨ho, hd, _⟩
  rcases ho with h1 | ⟨q, hq, hqv, hqe⟩
  · left
    refine ⟨h1, ?_⟩
    intro e he
    cases hx : e.2.IsNotInPipeline with
    | true => rfl
    | false =>
      exfalso
      rcases hd e he hx with h2 | ⟨h2, _⟩
      · rw [h1, selW_zero t hz] at h2
        have := hw e he
        omega
      · rw [h1, selW_zero t hz] at h2
        have := hw e he
        omega
  · right
    have hlook : lookupA t q.1 = some q.2 :=
      lookupA_eq_some_of_mem t q hnd hq
    refine ⟨q.2, by rw [hqe]; exact hlook, hqv, ?_⟩
    intro e he hev
    have := hd e he hev
    rw [hqe, selW_lookup t q.1 q.2 hlook] at this
    rw [hqe]
    exact this

/-- The fast-forward walk as read off a predecessor chain: the head of
the first branch on the chain with a passing check, if any. -/
def chainFF (s : State) : List BranchKey → Option CommitID
  | [] => none
  | k :: ks =>
    match lookupA s.Branches k with
    | none => none
    | some bv => if bv.IsCheckPass then some bv.CommitID else chainFF s ks

theorem ffWalk_chain (s : State) (t : PipelineTree)
    (hzb : containsA s.Branches zeroBK = false) :
    ∀ (ch : List BranchKey) (fuel fuel' : Nat) (bk : BranchKey),
      predChain t fuel' bk = some ch → ch.length < fuel →
      ffWalk s t fuel bk = chainFF s ch := by
  intro ch
  induction ch with
  | nil =>
    intro fuel fuel' bk hpc hlen
    rcases fuel' with _ | f
    · simp [predChain] at hpc
    rw [predChain] at hpc
    by_cases hbz : bk = zeroBK
    · rcases fuel with _ | fl
      · omega
      rw [ffWalk, hbz, (lookupA_eq_none_iff s.Branches zeroBK).mpr hzb]
      rfl
    · rw [if_neg hbz] at hpc
      cases hl : lookupA t bk with
      | none => rw [hl] at hpc; simp at hpc
      | some pv =>
        rw [hl] at hpc
        simp at hpc
  | cons k ch ihc =>
    intro fuel fuel' bk hpc hlen
    rcases fuel' with _ | f
    · simp [predChain] at hpc
    rw [predChain] at hpc
    by_cases hbz : bk = zeroBK
    · rw [if_pos hbz] at hpc
      simp at hpc
    · rw [if_neg hbz] at hpc
      cases hl : lookupA t bk with
      | none => rw [hl] at hpc; simp at hpc
      | some pv =>
        rw [hl] at hpc
        rw [Option.map_eq_some'] at hpc
        rcases hpc with ⟨ch0, hch0, heq⟩
        injection heq with h1 h2
        rw [h2] at hch0
        rw [h1] at hl
        rw [h1]
        rcases fuel with _ | fl
        · omega
        rw [ffWalk, chainFF]
        cases hbr : lookupA s.Branches k with
        | none => rfl
        | some bv =>
          simp only []
          by_cases hp : bv.IsCheckPass = true
          · rw [if_pos hp, if_pos hp]
          · rw [if_neg hp, if_neg hp, hl]
            simp only [Option.getD_some]
            apply ihc fl f pv.Predecessor hch0
            rw [List.length_cons] at hlen
            omega

/-- Claim C1: on the built pipeline tree, FindFastForward returns none
when no entry is viable; otherwise there is a viable entry of maximum
weight, of minimal pull-request number among the maximum-weight viable
entries, such that the result is the head commit of the first branch
with a passing check on that entry's predecessor chain (none if the walk
reaches the base sentinel without one). -/
theorem claim_C1_fastforward (s : State) (hwf : s.WF) :
    ((∀ e ∈ s.BuildPipelineTree, e.2.IsNotInPipeline = true) →
      s.FindFastForward s.BuildPipelineTree = none) ∧
    ((∃ e ∈ s.BuildPipelineTree, e.2.IsNotInPipeline = false) →
      ∃ bk pv ch,
        lookupA s.BuildPipelineTree bk = some pv ∧
        pv.IsNotInPipeline = false ∧
        (∀ e ∈ s.BuildPipelineTree, e.2.IsNotInPipeline = false →
          e.2.Weight ≤ pv.Weight) ∧
        (∀ e ∈ s.BuildPipelineTree, e.2.IsNotInPipeline = false →
          e.2.Weight = pv.Weight →
          bk.PullRequestNumber ≤ e.1.PullRequestNumber) ∧
        predChain s.BuildPipelineTree
          (s.BuildPipelineTree.length + 1) bk = some ch ∧
        s.FindFastForward s.BuildPipelineTree = chainFF s ch) := by
  have inv := buildTree_inv s hwf
  have hteq : s.BuildPipelineTree = (buildResult s).1 := buildTree_eq_result s
  have hw : ∀ e ∈ (buildResult s).1, 1 ≤ e.2.Weight := by
    intro e he
    exact (inv.wbound e.1 e.2
      (lookupA_eq_some_of_mem _ e inv.ndt he)).1
  have hzb : containsA s.Branches zeroBK = false := wf_zero_not_branch s hwf
  rcases selectHead_spec (buildResult s).1 inv.zeroNotT inv.ndt hw with
    ⟨hzero, halltomb⟩ | ⟨pv, hlook, hviable, hmax⟩
  · constructor
    · intro _
      rw [State.FindFastForward, hteq]
      rcases hfl : (buildResult s).1.length + 1 with _ | fl
      · omega
      rw [ffWalk, hzero, (lookupA_eq_none_iff s.Branches zeroBK).mpr hzb]
    · intro hex
      exfalso
      rw [hteq] at hex
      rcases hex with ⟨e, he, hev⟩
      rw [halltomb e he] at hev
      simp at hev
  · constructor
    · intro hall
      exfalso
      rw [hteq] at hall
      have hmem := mem_of_lookupA_eq_some _ _ _ hlook
      have := hall _ hmem
      simp only at this
      rw [hviable] at this
      simp at this
    · intro _
      rw [hteq]
      rcases chain_exists s (buildResult s).1 (buildResult s).2 inv
          pv.Weight.toNat (selectHead (buildResult s).1) pv hlook rfl with
        ⟨ch, hch, hchlen, _, _⟩
      rcases inv.wbound _ _ hlook with ⟨hw1, hw2⟩
      refine ⟨selectHead (buildResult s).1, pv, ch, hlook, hviable, ?_, ?_,
        ?_, ?_⟩
      · intro e he hev
        rcases hmax e he hev with h1 | ⟨h1, _⟩
        · exact le_of_lt h1
        · exact le_of_eq h1
      · intro e he hev hweq
        rcases hmax e he hev with h1 | ⟨_, h2⟩
        · omega
        · exact h2
      · apply predChain_fuel_mono _ _ _ _ _ hch
        omega
      · rw [State.FindFastForward]
        apply ffWalk_chain s (buildResult s).1 hzb ch _
          (pv.Weight.toNat + 1) _ hch
        omega

/-- Witness for claim C1 at a concrete two-branch state: the deeper
viable branch is selected and the walk returns the head of its passing
predecessor. -/
theorem claim_C1_witness :
    let s := State.mk "main"
      [(⟨1, 1⟩, ⟨["main"], true, true, true, "c1"⟩),
        (⟨2, 2⟩, ⟨["c1"], true, false, false, "c2"⟩)] [] []
    ((∀ e ∈ s.BuildPipelineTree, e.2.IsNotInPipeline = true) →
      s.FindFastForward s.BuildPipelineTree = none) ∧
    ((∃ e ∈ s.BuildPipelineTree, e.2.IsNotInPipeline = false) →
      ∃ bk pv ch,
        lookupA s.BuildPipelineTree bk = some pv ∧
        pv.IsNotInPipeline = false ∧
        (∀ e ∈ s.BuildPipelineTree, e.2.IsNotInPipeline = false →
          e.2.Weight ≤ pv.Weight) ∧
        (∀ e ∈ s.BuildPipelineTree, e.2.IsNotInPipeline = false →
          e.2.Weight = pv.Weight →
          bk.PullRequestNumber ≤ e.1.PullRequestNumber) ∧
        predChain s.BuildPipelineTree
          (s.BuildPipelineTree.length + 1) bk = some ch ∧
        s.FindFastForward s.BuildPipelineTree = chainFF s ch) :=
  claim_C1_fastforward _
    (by constructor
        · unfold NodupKeysA
          decide
        · decide)

/-! ### Claim C3: order independence -/

theorem any_of_perm {α : Type} (f : α → Bool) {l1 l2 : List α}
    (h : List.Perm l1 l2) : l1.any f = l2.any f := by
  cases hx : l2.any f with
  | true =>
    rcases List.any_eq_true.mp hx with ⟨a, ha, hfa⟩
    exact List.any_eq_true.mpr ⟨a, h.mem_iff.mpr ha, hfa⟩
  | false =>
    cases hy : l1.any f with
    | false => rfl
    | true =>
      rcases List.any_eq_true.mp hy with ⟨a, ha, hfa⟩
      rw [← hx]
      exact (List.any_eq_true.mpr ⟨a, h.mem_iff.mp ha, hfa⟩).symm

theorem nodupKeysA_of_perm {α β : Type} [DecidableEq α]
    {l1 l2 : List (α × β)} (h : List.Perm l1 l2) (hnd : NodupKeysA l1) :
    NodupKeysA l2 := by
  unfold NodupKeysA at hnd ⊢
  exact hnd.perm (h.map Prod.fst)

theorem lookupA_of_perm {α β : Type} [DecidableEq α]
    {l1 l2 : List (α × β)} (h : List.Perm l1 l2) (hnd : NodupKeysA l1) :
    ∀ k, lookupA l1 k = lookupA l2 k := by
  induction h with
  | nil => intro k; rfl
  | cons x p ih =>
    intro k
    rw [lookupA_cons, lookupA_cons]
    by_cases hx : x.1 = k
    · simp [hx]
    · rw [if_neg hx, if_neg hx]
      apply ih ?_ k
      unfold NodupKeysA at hnd ⊢
      rw [List.map_cons, List.nodup_cons] at hnd
      exact hnd.2
  | swap x y l =>
    intro k
    rw [lookupA_cons, lookupA_cons, lookupA_cons, lookupA_cons]
    by_cases hx : x.1 = k
    · by_cases hy : y.1 = k
      · exfalso
        unfold NodupKeysA at hnd
        simp only [List.map_cons, List.nodup_cons, List.mem_cons] at hnd
        exact hnd.1 (Or.inl (by rw [hy, hx]))
      · rw [if_pos hx, if_neg hy, if_pos hx]
    · by_cases hy : y.1 = k
      · rw [if_pos hy, if_neg hx, if_pos hy]
      · simp [hx, hy]
  | trans p q ihp ihq =>
    intro k
    rw [ihp hnd k]
    apply ihq ?_ k
    exact nodupKeysA_of_perm p hnd

theorem ffWalk_ext (s : State) (t1 t2 : PipelineTree)
    (hl : ∀ k, lookupA t1 k = lookupA t2 k) :
    ∀ (fuel : Nat) (bk : BranchKey),
      ffWalk s t1 fuel bk = ffWalk s t2 fuel bk := by
  intro fuel
  induction fuel with
  | zero => intro bk; rfl
  | succ fuel ih =>
    intro bk
    rw [ffWalk, ffWalk]
    cases lookupA s.Branches bk with
    | none => rfl
    | some bv =>
      simp only []
      by_cases hp : bv.IsCheckPass = true
      · rw [if_pos hp, if_pos hp]
      · rw [if_neg hp, if_neg hp, hl bk]
        exact ih _

/-- Claim C3 as stated is refuted: with two viable entries of equal
weight and equal pull-request number (differing only in the pipeline
counter), FindFastForward depends on the iteration order of the tree,
returning the passing head for one order and none for the other.  The
two trees are key-order presentations of the same map. -/
theorem claim_C3_counterexample :
    ((([((⟨1, 5⟩ : BranchKey), (⟨zeroBK, 1, false⟩ : PipelineValue)),
        ((⟨2, 5⟩ : BranchKey), (⟨zeroBK, 1, false⟩ : PipelineValue))] :
        PipelineTree).map Prod.fst).Nodup ∧
      List.Perm
        ([((⟨1, 5⟩ : BranchKey), (⟨zeroBK, 1, false⟩ : PipelineValue)),
          ((⟨2, 5⟩ : BranchKey), (⟨zeroBK, 1, false⟩ : PipelineValue))] :
          PipelineTree)
        ([((⟨2, 5⟩ : BranchKey), (⟨zeroBK, 1, false⟩ : PipelineValue)),
          ((⟨1, 5⟩ : BranchKey), (⟨zeroBK, 1, false⟩ : PipelineValue))] :
          PipelineTree)) ∧
    (State.mk "main"
        [(⟨1, 5⟩, ⟨["main"], true, true, true, "a"⟩),
          (⟨2, 5⟩, ⟨["main"], true, false, false, "b"⟩)] []
        []).FindFastForward
      [((⟨1, 5⟩ : BranchKey), (⟨zeroBK, 1, false⟩ : PipelineValue)),
        ((⟨2, 5⟩ : BranchKey), (⟨zeroBK, 1, false⟩ : PipelineValue))] =
        some "a" ∧
    (State.mk "main"
        [(⟨1, 5⟩, ⟨["main"], true, true, true, "a"⟩),
          (⟨2, 5⟩, ⟨["main"], true, false, false, "b"⟩)] []
        []).FindFastForward
      [((⟨2, 5⟩ : BranchKey), (⟨zeroBK, 1, false⟩ : PipelineValue)),
        ((⟨1, 5⟩ : BranchKey), (⟨zeroBK, 1, false⟩ : PipelineValue))] =
        none := by
  refine ⟨⟨by decide, ?_⟩, by decide, by decide⟩
  exact List.Perm.swap _ _ _

/-- Claim C3 amended: NextMergeablePullRequest is a pure function of the
state as a map (any two key-order presentations agree, for positive
pull-request numbers); FindFastForward is a pure function of the state
and tree as maps provided no two distinct viable tree entries share both
the same weight and the same pull-request number — in that tie case, as
the counterexample shows, its result can depend on iteration order. -/
theorem claim_C3_amended :
    (∀ (s : State) (t1 t2 : PipelineTree),
      NodupKeysA t1 → List.Perm t1 t2 →
      containsA t1 zeroBK = false →
      (∀ e ∈ t1, 1 ≤ e.2.Weight) →
      (∀ e1 ∈ t1, ∀ e2 ∈ t1,
        e1.2.IsNotInPipeline = false → e2.2.IsNotInPipeline = false →
        e1.2.Weight = e2.2.Weight →
        e1.1.PullRequestNumber = e2.1.PullRequestNumber → e1 = e2) →
      s.FindFastForward t1 = s.FindFastForward t2) ∧
    (∀ s1 s2 : State,
      List.Perm s1.Branches s2.Branches →
      List.Perm s1.MergeablePullRequests s2.MergeablePullRequests →
      (∀ p ∈ s1.MergeablePullRequests, 0 < p.1) →
      s1.NextMergeablePullRequest = s2.NextMergeablePullRequest) := by
  constructor
  · intro s t1 t2 hnd hperm hz hw htie
    have hnd2 : NodupKeysA t2 := nodupKeysA_of_perm hperm hnd
    have hlk : ∀ k, lookupA t1 k = lookupA t2 k := lookupA_of_perm hperm hnd
    have hz2 : containsA t2 zeroBK = false := by
      unfold containsA
      rw [← hlk zeroBK]
      exact hz
    have hw2 : ∀ e ∈ t2, 1 ≤ e.2.Weight :=
      fun e he => hw e (hperm.mem_iff.mpr he)
    have hsel : selectHead t1 = selectHead t2 := by
      rcases selectHead_spec t1 hz hnd hw with ⟨hz1, ha1⟩ | ⟨pv1, hl1, hv1, hm1⟩
      · rcases selectHead_spec t2 hz2 hnd2 hw2 with
          ⟨hz2e, _⟩ | ⟨pv2, hl2, hv2, _⟩
        · rw [hz1, hz2e]
        · exfalso
          have hmem2 := mem_of_lookupA_eq_some _ _ _ hl2
          have hmem1 : (selectHead t2, pv2) ∈ t1 := hperm.mem_iff.mpr hmem2
          have := ha1 _ hmem1
          simp only at this
          rw [hv2] at this
          simp at this
      · rcases selectHead_spec t2 hz2 hnd2 hw2 with
          ⟨hz2e, ha2⟩ | ⟨pv2, hl2, hv2, hm2⟩
        · exfalso
          have hmem1 := mem_of_lookupA_eq_some _ _ _ hl1
          have := ha2 _ (hperm.mem_iff.mp hmem1)
          simp only at this
          rw [hv1] at this
          simp at this
        · have hmem1 := mem_of_lookupA_eq_some _ _ _ hl1
          have hmem2 : (selectHead t2, pv2) ∈ t1 :=
            hperm.mem_iff.mpr (mem_of_lookupA_eq_some _ _ _ hl2)
          have h12 := hm1 _ hmem2 hv2
          have h21 := hm2 _ (hperm.mem_iff.mp hmem1) hv1
          have hweq : pv2.Weight = pv1.Weight := by
            rcases h12 with h1 | ⟨h1, _⟩
            · rcases h21 with h2 | ⟨h2, _⟩
              · exfalso
                have h1x : pv2.Weight < pv1.Weight := h1
                have h2x : pv1.Weight < pv2.Weight := h2
                omega
              · have h2x : pv1.Weight = pv2.Weight := h2
                omega
            · exact h1
          have hpr : (selectHead t1).PullRequestNumber =
              (selectHead t2).PullRequestNumber := by
            rcases h12 with h1 | ⟨_, h1⟩
            · exfalso
              have h1x : pv2.Weight < pv1.Weight := h1
              omega
            · rcases h21 with h2 | ⟨_, h2⟩
              · exfalso
                have h2x : pv1.Weight < pv2.Weight := h2
                omega
              · exact le_antisymm h1 h2
          have := htie _ hmem1 _ hmem2 hv1 hv2 hweq.symm hpr
          exact congrArg Prod.fst this
    rw [State.FindFastForward, State.FindFastForward, hperm.length_eq, hsel]
    exact ffWalk_ext s t1 t2 hlk _ _
  · intro s1 s2 hbr hmp hpos
    have hown : ∀ n, ownsBranch s1 n = ownsBranch s2 n := by
      intro n
      exact any_of_perm _ hbr
    have hpos2 : ∀ p ∈ s2.MergeablePullRequests, 0 < p.1 :=
      fun p hp => hpos p (hmp.mem_iff.mpr hp)
    have hstep : ∀ (l : List (PullRequestNumber × CommitID)) (next : Int),
        nmpFold s1 l next = nmpFold s2 l next := by
      intro l
      induction l with
      | nil => intro next; rfl
      | cons p l ih =>
        intro next
        rw [nmpFold_cons, nmpFold_cons, ih]
        have h1 := hown p.1
        rw [ownsBranch] at h1
        rw [h1]
        rfl
    rw [nextMergeable_eq_nmpFold, nextMergeable_eq_nmpFold]
    rw [hstep s1.MergeablePullRequests 0]
    rcases nmp_fold s2 s1.MergeablePullRequests 0
        (by intro p hp; exact hpos p hp) le_rfl with
      ⟨heq1, hall1⟩ | ⟨hex1, hp1, hmin1, _⟩
    · rcases nmp_fold s2 s2.MergeablePullRequests 0 hpos2 le_rfl with
        ⟨heq2, hall2⟩ | ⟨hex2, hp2, hmin2, _⟩
      · rw [heq1, heq2]
      · exfalso
        rcases hex2 with ⟨r, hr, hro, _⟩
        exact (hall1 r (hmp.mem_iff.mpr hr) hro).1 rfl
    · rcases nmp_fold s2 s2.MergeablePullRequests 0 hpos2 le_rfl with
        ⟨heq2, hall2⟩ | ⟨hex2, hp2, hmin2, _⟩
      · exfalso
        rcases hex1 with ⟨r, hr, hro, _⟩
        exact (hall2 r (hmp.mem_iff.mp hr) hro).1 rfl
      · rcases hex1 with ⟨r1, hr1, hro1, hrv1⟩
        rcases hex2 with ⟨r2, hr2, hro2, hrv2⟩
        have h12 := hmin1 r2 (hmp.mem_iff.mpr hr2) hro2
        have h21 := hmin2 r1 (hmp.mem_iff.mp hr1) hro1
        rw [hrv2] at h12
        rw [hrv1] at h21
        exact le_antisymm h12 h21

/-- Witness for the amended claim C3 at concrete permuted inputs. -/
theorem claim_C3_amended_witness :
    ((State.mk "main" [(⟨1, 1⟩, ⟨["main"], true, true, true, "c1"⟩)] []
        []).FindFastForward
      [((⟨1, 1⟩ : BranchKey), (⟨zeroBK, 1, false⟩ : PipelineValue))] =
      (State.mk "main" [(⟨1, 1⟩, ⟨["main"], true, true, true, "c1"⟩)] []
        []).FindFastForward
      [((⟨1, 1⟩ : BranchKey), (⟨zeroBK, 1, false⟩ : PipelineValue))]) ∧
    ((State.mk "m" [] [(3, "h3"), (5, "h5")] []).NextMergeablePullRequest =
      (State.mk "m" [] [(5, "h5"), (3, "h3")] []).NextMergeablePullRequest) :=
  ⟨claim_C3_amended.1
      (State.mk "main" [(⟨1, 1⟩, ⟨["main"], true, true, true, "c1"⟩)] [] [])
      [((⟨1, 1⟩ : BranchKey), (⟨zeroBK, 1, false⟩ : PipelineValue))]
      [((⟨1, 1⟩ : BranchKey), (⟨zeroBK, 1, false⟩ : PipelineValue))]
      (by unfold NodupKeysA; decide) (List.Perm.refl _) (by decide)
      (by decide) (by decide),
    claim_C3_amended.2
      (State.mk "m" [] [(3, "h3"), (5, "h5")] [])
      (State.mk "m" [] [(5, "h5"), (3, "h3")] [])
      (List.Perm.refl _) (List.Perm.swap _ _ _) (by decide)⟩

/-! ### Claim C6: pruning orphans and rebuilding -/

theorem buildStep_cases
    (a : PipelineTree × List (CommitID × BranchKey) × Nat)
    (bk : BranchKey) (bv : BranchValue) :
    buildStep a bk bv = a ∨ (buildStep a bk bv).2.2 = a.2.2 + 1 := by
  rw [buildStep]
  by_cases hin : containsA a.1 bk = true
  · rw [if_pos hin]
    left
    rfl
  · rw [if_neg hin]
    cases bv.Parents.find? (fun p => containsA a.2.1 p) with
    | none => left; rfl
    | some p => right; rfl

theorem buildStep_numAdded_le
    (a : PipelineTree × List (CommitID × BranchKey) × Nat)
    (bk : BranchKey) (bv : BranchValue) :
    a.2.2 ≤ (buildStep a bk bv).2.2 := by
  rcases buildStep_cases a bk bv with h | h
  · rw [h]
  · rw [h]; omega

theorem buildFold_numAdded_le
    (l : List (BranchKey × BranchValue)) :
    ∀ a : PipelineTree × List (CommitID × BranchKey) × Nat,
      a.2.2 ≤ (l.foldl (fun a p => buildStep a p.1 p.2) a).2.2 := by
  induction l with
  | nil => intro a; exact le_refl _
  | cons p l ih =>
    intro a
    rw [List.foldl_cons]
    exact le_trans (buildStep_numAdded_le a p.1 p.2) (ih _)

theorem buildFold_id (l : List (BranchKey × BranchValue)) :
    ∀ a : PipelineTree × List (CommitID × BranchKey) × Nat,
      (l.foldl (fun a p => buildStep a p.1 p.2) a).2.2 = a.2.2 →
      l.foldl (fun a p => buildStep a p.1 p.2) a = a ∧
        ∀ p ∈ l, buildStep a p.1 p.2 = a := by
  induction l with
  | nil =>
    intro a _
    exact ⟨rfl, by intro p hp; simp at hp⟩
  | cons p l ih =>
    intro a hzero
    rw [List.foldl_cons] at hzero
    have hstep : buildStep a p.1 p.2 = a := by
      rcases buildStep_cases a p.1 p.2 with h | h
      · exact h
      · exfalso
        have := buildFold_numAdded_le l (buildStep a p.1 p.2)
        rw [hzero, h] at this
        omega
    rw [hstep] at hzero
    rcases ih a hzero with ⟨h1, h2⟩
    constructor
    · rw [List.foldl_cons, hstep]
      exact h1
    · intro q hq
      rcases List.mem_cons.mp hq with h3 | h3
      · rw [h3]; exact hstep
      · exact h2 q h3

theorem buildStep_keys
    (a : PipelineTree × List (CommitID × BranchKey) × Nat)
    (bk : BranchKey) (bv : BranchValue) (k : BranchKey)
    (h : containsA (buildStep a bk bv).1 k = true) :
    containsA a.1 k = true ∨ bk = k := by
  rw [buildStep] at h
  by_cases hin : containsA a.1 bk = true
  · rw [if_pos hin] at h
    exact Or.inl h
  · rw [if_neg hin] at h
    cases hf : bv.Parents.find? (fun p => containsA a.2.1 p) with
    | none => rw [hf] at h; exact Or.inl h
    | some p =>
      rw [hf] at h
      simp only [] at h
      rw [containsA_insertA] at h
      rcases Bool.or_eq_true _ _ |>.mp h with h1 | h1
      · exact Or.inr (of_decide_eq_true h1)
      · exact Or.inl h1

theorem buildFold_keys (l : List (BranchKey × BranchValue)) :
    ∀ (a : PipelineTree × List (CommitID × BranchKey) × Nat)
      (k : BranchKey),
      containsA (l.foldl (fun a p => buildStep a p.1 p.2) a).1 k = true →
      containsA a.1 k = true ∨ ∃ p ∈ l, p.1 = k := by
  induction l with
  | nil => intro a k h; exact Or.inl h
  | cons p l ih =>
    intro a k h
    rw [List.foldl_cons] at h
    rcases ih _ k h with h1 | ⟨q, hq, hqk⟩
    · rcases buildStep_keys a p.1 p.2 k h1 with h2 | h2
      · exact Or.inl h2
      · exact Or.inr ⟨p, List.mem_cons_self _ _, h2⟩
    · exact Or.inr ⟨q, List.mem_cons_of_mem _ hq, hqk⟩

theorem buildStep_nodup
    (a : PipelineTree × List (CommitID × BranchKey) × Nat)
    (bk : BranchKey) (bv : BranchValue) (h : NodupKeysA a.1) :
    NodupKeysA (buildStep a bk bv).1 := by
  rw [buildStep]
  by_cases hin : containsA a.1 bk = true
  · rw [if_pos hin]; exact h
  · rw [if_neg hin]
    cases bv.Parents.find? (fun p => containsA a.2.1 p) with
    | none => exact h
    | some p => exact nodupKeysA_insertA _ _ _ h

theorem buildFold_nodup (l : List (BranchKey × BranchValue)) :
    ∀ a : PipelineTree × List (CommitID × BranchKey) × Nat,
      NodupKeysA a.1 →
      NodupKeysA (l.foldl (fun a p => buildStep a p.1 p.2) a).1 := by
  induction l with
  | nil => intro a h; exact h
  | cons p l ih =>
    intro a h
    rw [List.foldl_cons]
    exact ih _ (buildStep_nodup a p.1 p.2 h)

theorem buildStep_len
    (a : PipelineTree × List (CommitID × BranchKey) × Nat)
    (bk : BranchKey) (bv : BranchValue) :
    ((buildStep a bk bv).1.length : Nat) + a.2.2 =
      a.1.length + (buildStep a bk bv).2.2 := by
  rw [buildStep]
  by_cases hin : containsA a.1 bk = true
  · rw [if_pos hin]
  · rw [if_neg hin]
    cases bv.Parents.find? (fun p => containsA a.2.1 p) with
    | none => rfl
    | some p =>
      simp only []
      rw [length_insertA, if_neg (by simp [hin])]
      omega

theorem buildFold_len (l : List (BranchKey × BranchValue)) :
    ∀ a : PipelineTree × List (CommitID × BranchKey) × Nat,
      (l.foldl (fun a p => buildStep a p.1 p.2) a).1.length + a.2.2 =
        a.1.length + (l.foldl (fun a p => buildStep a p.1 p.2) a).2.2 := by
  induction l with
  | nil => intro a; rfl
  | cons p l ih =>
    intro a
    rw [List.foldl_cons]
    have h1 := buildStep_len a p.1 p.2
    have h2 := ih (buildStep a p.1 p.2)
    omega

theorem keysub_length {α β γ : Type}
    (t : List (α × β)) (m : List (α × γ))
    (hnd : (t.map Prod.fst).Nodup)
    (hsub : ∀ k ∈ t.map Prod.fst, k ∈ m.map Prod.fst) :
    t.length ≤ m.length := by
  have h1 : (t.map Prod.fst).Subperm (m.map Prod.fst) :=
    List.Nodup.subperm hnd hsub
  have h2 := h1.length_le
  simpa using h2

theorem loop_fix (L : List (BranchKey × BranchValue)) :
    ∀ (fuel : Nat) (acc : PipelineTree × List (CommitID × BranchKey)),
      NodupKeysA acc.1 →
      (∀ k ∈ acc.1.map Prod.fst, k ∈ L.map Prod.fst) →
      L.length < fuel + acc.1.length →
      (buildPass L (buildLoop L fuel acc)).2.2 = 0 := by
  intro fuel
  induction fuel with
  | zero =>
    intro acc hnd hsub hlen
    exfalso
    have := keysub_length acc.1 L hnd hsub
    omega
  | succ fuel ih =>
    intro acc hnd hsub hlen
    rw [buildLoop]
    by_cases hz : (buildPass L acc).2.2 = 0
    · rw [if_pos hz]
      have hid := buildFold_id L (acc.1, acc.2, 0) (by exact hz)
      have heq : buildPass L acc = (acc.1, acc.2, 0) := hid.1
      have hx : ((buildPass L acc).1, (buildPass L acc).2.1) = acc := by
        rw [heq]
      rw [hx]
      exact hz
    · rw [if_neg hz]
      apply ih
      · exact buildFold_nodup L (acc.1, acc.2, 0) hnd
      · intro k hk
        have hc := containsA_of_mem_keys _ _ hk
        rcases buildFold_keys L (acc.1, acc.2, 0) k hc with h1 | ⟨p, hp, hpk⟩
        · exact hsub k (mem_keys_of_containsA _ _ h1)
        · exact List.mem_map.mpr ⟨p, hp, hpk⟩
      · show L.length < fuel + (buildPass L acc).1.length
        have hthis : (buildPass L acc).1.length + 0 =
            acc.1.length + (buildPass L acc).2.2 :=
          buildFold_len L (acc.1, acc.2, 0)
        have hnz : 1 ≤ (buildPass L acc).2.2 := by
          rcases Nat.eq_zero_or_pos (buildPass L acc).2.2 with h | h
          · exact absurd h hz
          · exact h
        omega

theorem loop_fuel_mono (L : List (BranchKey × BranchValue)) :
    ∀ (f f' : Nat) (acc : PipelineTree × List (CommitID × BranchKey)),
      NodupKeysA acc.1 →
      (∀ k ∈ acc.1.map Prod.fst, k ∈ L.map Prod.fst) →
      L.length < f + acc.1.length → f ≤ f' →
      buildLoop L f acc = buildLoop L f' acc := by
  intro f
  induction f with
  | zero =>
    intro f' acc hnd hsub hlen _
    exfalso
    have := keysub_length acc.1 L hnd hsub
    omega
  | succ f ih =>
    intro f' acc hnd hsub hlen hle
    rcases f' with _ | f2
    · omega
    rw [buildLoop, buildLoop]
    by_cases hz : (buildPass L acc).2.2 = 0
    · rw [if_pos hz, if_pos hz]
    · rw [if_neg hz, if_neg hz]
      apply ih
      · exact buildFold_nodup L (acc.1, acc.2, 0) hnd
      · intro k hk
        have hc := containsA_of_mem_keys _ _ hk
        rcases buildFold_keys L (acc.1, acc.2, 0) k hc with h1 | ⟨p, hp, hpk⟩
        · exact hsub k (mem_keys_of_containsA _ _ h1)
        · exact List.mem_map.mpr ⟨p, hp, hpk⟩
      · show L.length < f + (buildPass L acc).1.length
        have hthis : (buildPass L acc).1.length + 0 =
            acc.1.length + (buildPass L acc).2.2 :=
          buildFold_len L (acc.1, acc.2, 0)
        have hnz : 1 ≤ (buildPass L acc).2.2 := by
          rcases Nat.eq_zero_or_pos (buildPass L acc).2.2 with h | h
          · exact absurd h hz
          · exact h
        omega
      · omega

theorem filter_lookupA {α β : Type} [DecidableEq α]
    (g : α → Bool) (l : List (α × β)) (k : α) :
    lookupA (l.filter (fun p => g p.1)) k =
      if g k = true then lookupA l k else none := by
  induction l with
  | nil => simp [lookupA_nil]
  | cons p l ih =>
    rw [List.filter_cons]
    by_cases hp : g p.1 = true
    · rw [if_pos hp, lookupA_cons, lookupA_cons]
      by_cases hk : p.1 = k
      · rw [if_pos hk, ← hk, if_pos hp]
        simp
      · rw [if_neg hk, if_neg hk, ih]
    · rw [if_neg hp, ih, lookupA_cons]
      by_cases hk : p.1 = k
      · rw [if_neg (by rw [← hk]; exact hp)]
        rw [if_pos hk] at *
        by_cases hg : g k = true
        · exfalso
          rw [← hk] at hg
          exact hp hg
        · rw [if_neg hg]
      · rw [if_neg hk]

theorem orphans_blocked (s : State) (_hwf : s.WF) :
    ∀ p ∈ s.Branches, containsA (buildResult s).1 p.1 = false →
      ∀ c ∈ p.2.Parents, containsA (buildResult s).2 c = false := by
  have hfix : (buildPass s.Branches
      (buildLoop s.Branches (s.Branches.length + 1)
        ([], [(s.Base, zeroBK)]))).2.2 = 0 := by
    apply loop_fix s.Branches (s.Branches.length + 1) ([], [(s.Base, zeroBK)])
    · simp [NodupKeysA]
    · intro k hk; simp at hk
    · simp
  have hall :=
    (buildFold_id s.Branches
      ((buildResult s).1, (buildResult s).2, 0) hfix).2
  intro p hp hnc c hc
  have hstep := hall p hp
  cases hcf : containsA (buildResult s).2 c with
  | false => rfl
  | true =>
    exfalso
    rw [buildStep, if_neg (by rw [hnc]; simp)] at hstep
    cases hf : p.2.Parents.find?
        (fun x => containsA (buildResult s).2 x) with
    | none =>
      rw [List.find?_eq_none] at hf
      exact hf c hc hcf
    | some q =>
      simp only [hf] at hstep
      have hna := congrArg (fun x => x.2.2) hstep
      simp at hna
  
theorem pass_filter (s : State)
    (horphan : ∀ p ∈ s.Branches,
      containsA (buildResult s).1 p.1 = false →
      ∀ c ∈ p.2.Parents, containsA (buildResult s).2 c = false)
    (hhead : ∀ p ∈ s.Branches, containsA (buildResult s).1 p.1 = true →
      containsA (buildResult s).2 p.2.CommitID = true) :
    ∀ (l : List (BranchKey × BranchValue)), (∀ p ∈ l, p ∈ s.Branches) →
    ∀ (a : PipelineTree × List (CommitID × BranchKey) × Nat),
      (∀ c, containsA a.2.1 c = true →
        containsA (buildResult s).2 c = true) →
      (∀ k, containsA a.1 k = true →
        containsA (buildResult s).1 k = true) →
      l.foldl (fun a p => buildStep a p.1 p.2) a =
        (l.filter (fun p => containsA (buildResult s).1 p.1)).foldl
          (fun a p => buildStep a p.1 p.2) a ∧
      (∀ c, containsA
          (l.foldl (fun a p => buildStep a p.1 p.2) a).2.1 c = true →
        containsA (buildResult s).2 c = true) ∧
      (∀ k, containsA
          (l.foldl (fun a p => buildStep a p.1 p.2) a).1 k = true →
        containsA (buildResult s).1 k = true) := by
  intro l
  induction l with
  | nil =>
    intro _ a hshas htree
    exact ⟨rfl, hshas, htree⟩
  | cons p l ih =>
    intro hsub a hshas htree
    have hps : p ∈ s.Branches := hsub p (List.mem_cons_self _ _)
    have hlsub : ∀ q ∈ l, q ∈ s.Branches :=
      fun q hq => hsub q (List.mem_cons_of_mem _ hq)
    cases hkeep : containsA (buildResult s).1 p.1 with
    | true =>
      -- the entry survives pruning; the step preserves the domains
      have hstepinv :
          (∀ c, containsA (buildStep a p.1 p.2).2.1 c = true →
            containsA (buildResult s).2 c = true) ∧
          (∀ k, containsA (buildStep a p.1 p.2).1 k = true →
            containsA (buildResult s).1 k = true) := by
        rw [buildStep]
        by_cases hin : containsA a.1 p.1 = true
        · rw [if_pos hin]
          exact ⟨hshas, htree⟩
        · rw [if_neg hin]
          cases hf : p.2.Parents.find?
              (fun x => containsA a.2.1 x) with
          | none => exact ⟨hshas, htree⟩
          | some q =>
            simp only []
            constructor
            · intro c hcc
              rw [containsA_insertA] at hcc
              rcases (Bool.or_eq_true _ _).mp hcc with h1 | h1
              · rw [← of_decide_eq_true h1]
                exact hhead p hps hkeep
              · exact hshas c h1
            · intro k hkk
              rw [containsA_insertA] at hkk
              rcases (Bool.or_eq_true _ _).mp hkk with h1 | h1
              · rw [← of_decide_eq_true h1]
                exact hkeep
              · exact htree k h1
      rw [List.foldl_cons,
        List.filter_cons_of_pos (by rw [hkeep]), List.foldl_cons]
      exact ih hlsub (buildStep a p.1 p.2) hstepinv.1 hstepinv.2
    | false =>
      -- the entry is an orphan; its step is the identity
      have hstep : buildStep a p.1 p.2 = a := by
        rw [buildStep]
        have hin : ¬ containsA a.1 p.1 = true := by
          intro hx
          rw [htree p.1 hx] at hkeep
          simp at hkeep
        rw [if_neg hin]
        cases hf : p.2.Parents.find? (fun x => containsA a.2.1 x) with
        | none => rfl
        | some q =>
          exfalso
          have hq1 : containsA a.2.1 q = true := by
            have := List.find?_some hf
            simpa using this
          have hq2 : q ∈ p.2.Parents := List.mem_of_find?_eq_some hf
          have := horphan p hps hkeep q hq2
          rw [hshas q hq1] at this
          simp at this
      rw [List.foldl_cons, hstep,
        List.filter_cons_of_neg (by rw [hkeep]; simp)]
      exact ih hlsub a hshas htree

theorem loop_filter (s : State)
    (horphan : ∀ p ∈ s.Branches,
      containsA (buildResult s).1 p.1 = false →
      ∀ c ∈ p.2.Parents, containsA (buildResult s).2 c = false)
    (hhead : ∀ p ∈ s.Branches, containsA (buildResult s).1 p.1 = true →
      containsA (buildResult s).2 p.2.CommitID = true) :
    ∀ (fuel : Nat) (acc : PipelineTree × List (CommitID × BranchKey)),
      (∀ c, containsA acc.2 c = true →
        containsA (buildResult s).2 c = true) →
      (∀ k, containsA acc.1 k = true →
        containsA (buildResult s).1 k = true) →
      buildLoop s.Branches fuel acc =
        buildLoop
          (s.Branches.filter (fun p => containsA (buildResult s).1 p.1))
          fuel acc := by
  intro fuel
  induction fuel with
  | zero => intro acc _ _; rfl
  | succ fuel ih =>
    intro acc hshas htree
    have hpf := pass_filter s horphan hhead s.Branches (fun _ h => h)
      (acc.1, acc.2, 0) hshas htree
    have heq : buildPass s.Branches acc =
        buildPass
          (s.Branches.filter (fun p => containsA (buildResult s).1 p.1))
          acc := hpf.1
    rw [buildLoop, buildLoop, ← heq]
    by_cases hz : (buildPass s.Branches acc).2.2 = 0
    · rw [if_pos hz, if_pos hz]
    · rw [if_neg hz, if_neg hz]
      exact ih ((buildPass s.Branches acc).1, (buildPass s.Branches acc).2.1)
        hpf.2.1 hpf.2.2

/-- Claim C6: pruning removes exactly the branch keys outside the tree
(surviving bindings unchanged); rebuilding the pipeline tree from the
pruned state yields the same tree; and pruning a second time with the
rebuilt tree is the identity. -/
theorem claim_C6_prune_rebuild (s : State) (hwf : s.WF) :
    (∀ bk,
      lookupA (s.ToPrunedOrphanedBranches s.BuildPipelineTree).Branches bk =
        if containsA s.BuildPipelineTree bk = true then
          lookupA s.Branches bk
        else none) ∧
    (s.ToPrunedOrphanedBranches s.BuildPipelineTree).BuildPipelineTree =
      s.BuildPipelineTree ∧
    (s.ToPrunedOrphanedBranches s.BuildPipelineTree).ToPrunedOrphanedBranches
        (s.ToPrunedOrphanedBranches s.BuildPipelineTree).BuildPipelineTree =
      s.ToPrunedOrphanedBranches s.BuildPipelineTree := by
  have inv := buildTree_inv s hwf
  have horphan := orphans_blocked s hwf
  have hhead : ∀ p ∈ s.Branches,
      containsA (buildResult s).1 p.1 = true →
      containsA (buildResult s).2 p.2.CommitID = true :=
    fun p hp hc => inv.headIn p hp hc
  have hrebuild :
      (s.ToPrunedOrphanedBranches s.BuildPipelineTree).BuildPipelineTree =
        s.BuildPipelineTree := by
    have hbase :
        (s.ToPrunedOrphanedBranches s.BuildPipelineTree).Base = s.Base := rfl
    have hbr :
        (s.ToPrunedOrphanedBranches s.BuildPipelineTree).Branches =
          s.Branches.filter
            (fun p => containsA (buildResult s).1 p.1) := rfl
    rw [State.BuildPipelineTree, hbr, hbase]
    have hlenle :
        (s.Branches.filter
          (fun p => containsA (buildResult s).1 p.1)).length ≤
          s.Branches.length :=
      List.length_filter_le _ _
    have hmono := loop_fuel_mono
      (s.Branches.filter (fun p => containsA (buildResult s).1 p.1))
      ((s.Branches.filter
        (fun p => containsA (buildResult s).1 p.1)).length + 1)
      (s.Branches.length + 1)
      ([], [(s.Base, zeroBK)])
      (by simp [NodupKeysA])
      (by intro k hk; simp at hk)
      (by simp)
      (by omega)
    rw [hmono]
    have hinit2 : ∀ c,
        containsA ([(s.Base, zeroBK)] :
          List (CommitID × BranchKey)) c = true →
        containsA (buildResult s).2 c = true := by
      intro c hcc
      rw [containsA, lookupA_cons] at hcc
      by_cases hb : s.Base = c
      · rw [← hb]
        exact inv.baseIn
      · rw [if_neg hb] at hcc
        simp [lookupA_nil] at hcc
    have hloop := loop_filter s horphan hhead (s.Branches.length + 1)
      ([], [(s.Base, zeroBK)]) hinit2
      (by intro k hk; simp [containsA, lookupA_nil] at hk)
    rw [← hloop]
    rfl
  refine ⟨?_, hrebuild, ?_⟩
  · intro bk
    exact filter_lookupA _ s.Branches bk
  · rw [State.ToPrunedOrphanedBranches, hrebuild]
    have hfe :
        (s.ToPrunedOrphanedBranches s.BuildPipelineTree).Branches.filter
          (fun p => containsA s.BuildPipelineTree p.1) =
        (s.ToPrunedOrphanedBranches s.BuildPipelineTree).Branches := by
      apply List.filter_eq_self.mpr
      intro p hp
      have hp2 := hp
      rw [State.ToPrunedOrphanedBranches] at hp2
      simp only [] at hp2
      exact (List.mem_filter.mp hp2).2
    rw [hfe]

/-- Witness for claim C6 at a concrete state with one reachable branch
and one orphan. -/
theorem claim_C6_witness :
    let s := State.mk "main"
      [(⟨1, 1⟩, ⟨["main"], true, true, true, "c1"⟩),
        (⟨9, 9⟩, ⟨["nowhere"], true, false, false, "c9"⟩)] [] []
    (∀ bk,
      lookupA (s.ToPrunedOrphanedBranches s.BuildPipelineTree).Branches bk =
        if containsA s.BuildPipelineTree bk = true then
          lookupA s.Branches bk
        else none) ∧
    (s.ToPrunedOrphanedBranches s.BuildPipelineTree).BuildPipelineTree =
      s.BuildPipelineTree ∧
    (s.ToPrunedOrphanedBranches s.BuildPipelineTree).ToPrunedOrphanedBranches
        (s.ToPrunedOrphanedBranches s.BuildPipelineTree).BuildPipelineTree =
      s.ToPrunedOrphanedBranches s.BuildPipelineTree :=
  claim_C6_prune_rebuild _
    (by constructor
        · unfold NodupKeysA
          decide
        · decide)

end BuildTool
